import Mathlib

/-!
# peerstohttp: chunked piece store and resumable upload pipeline

A shallow embedding of `src/gdStorage.go`.

* Part 1 embeds the chunked piece store (`piecePerResourcePiece`, `chunks`):
  `Completion`, `MarkComplete`, `ReadAt`, `WriteAt`, `getChunks`, `chunks.ReadAt`.
* Part 2 embeds the upload pipeline: the producer loop of `continueUpload` and the
  `Content-Range` header computed by `uploadChunk`.

The resource store (`resource.Provider`, backed by `filecache`), the Go standard library
(`os.File.ReadAt`, `io.SectionReader`, `io.Copy`, `strconv`, `fmt.Sprintf`) and
`torrent.Reader` are not part of the repository; they are modelled here by what their
documented contracts say, each under the name it has in Go.

Go's `int64` (and `int` on the 64-bit targets this program runs on) is modelled as `Int`
with explicit wrap-around (`wrap64`) at every addition and subtraction the source performs.
A byte is modelled as its numeric value; the code never inspects payload bytes.
-/

namespace Peerstohttp

/-! ## Machine integers and shared result types -/

/-- Payload bytes. -/
abbrev Bytes := List Nat

/-- Two's-complement wrap-around of a mathematical integer into the `int64` range. -/
def wrap64 (x : Int) : Int :=
  (x + 9223372036854775808) % 18446744073709551616 - 9223372036854775808

/-- The `int64` range. -/
def isInt64 (x : Int) : Prop :=
  -9223372036854775808 ≤ x ∧ x < 9223372036854775808

instance (x : Int) : Decidable (isInt64 x) := by
  unfold isInt64; exact inferInstance

/-- Go `error` values as far as the code distinguishes them: `io.EOF` against anything else. -/
inductive Err where
  | EOF
  | other
  deriving DecidableEq, Repr

/-- The result `(n, err)` of a `ReadAt`/`Read` call into a buffer `b`: `data` is what the call
stored in `b[:n]`, so `n = data.length`; `err = none` is Go's `nil`. -/
structure ReadResult where
  data : Bytes
  err : Option Err
  deriving DecidableEq, Repr

/-- The byte count `n` of a read result. -/
def ReadResult.n (r : ReadResult) : Nat := r.data.length

/-! ## Part 1: resource instances and chunk lists -/

/-- A `resource.Instance` handle: the key it was opened with (relative to the directory of the
piece) together with the file currently stored under that key, `none` when there is no such
file. -/
structure Instance where
  key : String
  file : Option Bytes
  deriving DecidableEq, Repr

/-- `Instance.ReadAt(b, off)` of the file-backed store, which opens the file and calls
`os.File.ReadAt`: a missing file or a negative offset is an error other than `io.EOF`;
otherwise the bytes from `off` on are copied into `b`, with `io.EOF` exactly when fewer than
`len(b)` bytes were available. `blen` is `len(b)`. -/
def Instance.ReadAt (i : Instance) (blen : Nat) (off : Int) : ReadResult :=
  match i.file with
  | none => ⟨[], some Err.other⟩
  | some d =>
    if off < 0 then ⟨[], some Err.other⟩
    else
      let data := (d.drop off.toNat).take blen
      ⟨data, if data.length = blen then none else some Err.EOF⟩

/-- The `chunk` struct of line 112. -/
structure chunk where
  offset : Int
  instance_ : Instance
  deriving DecidableEq, Repr

/-- The `chunks` slice type of line 117. -/
abbrev chunks := List chunk

/-- `chunks.ReadAt` (lines 119-138). The `for` loop drops leading chunks whose offset lies
after `off`; the first remaining chunk is read at the relative offset `off - me[0].offset`;
a short read that ended with `nil` or `io.EOF` continues recursively in `me[1:]` with the rest
of the buffer at `off + n`. -/
def chunks.ReadAt : chunks → Nat → Int → ReadResult
  | [], _, _ => ⟨[], some Err.EOF⟩
  | c :: rest, blen, off =>
    if c.offset ≤ off then
      let r := c.instance_.ReadAt blen (wrap64 (off - c.offset))
      if r.n = blen then ⟨r.data, none⟩
      else if r.err = none ∨ r.err = some Err.EOF then
        let r2 := chunks.ReadAt rest (blen - r.n) (wrap64 (off + (r.n : Int)))
        ⟨r.data ++ r2.data, r2.err⟩
      else ⟨r.data, r.err⟩
    else chunks.ReadAt rest blen off

/-! ### `strconv`: chunk file names -/

/-- The decimal digit character of `d < 10`. -/
def digitChar : Nat → Char
  | 0 => '0' | 1 => '1' | 2 => '2' | 3 => '3' | 4 => '4'
  | 5 => '5' | 6 => '6' | 7 => '7' | 8 => '8' | _ => '9'

/-- The value of a decimal digit character, `none` for any other character. -/
def digitVal (c : Char) : Option Nat :=
  if c = '0' then some 0 else if c = '1' then some 1 else if c = '2' then some 2
  else if c = '3' then some 3 else if c = '4' then some 4 else if c = '5' then some 5
  else if c = '6' then some 6 else if c = '7' then some 7 else if c = '8' then some 8
  else if c = '9' then some 9 else none

/-- Decimal digits of `n`, most significant first, in front of `acc`; `fuel` bounds the number
of digits. -/
def formatUintAux : Nat → Nat → List Char → List Char
  | 0, _, acc => acc
  | fuel + 1, n, acc =>
    if n < 10 then digitChar n :: acc
    else formatUintAux fuel (n / 10) (digitChar (n % 10) :: acc)

/-- Decimal representation of a natural number, without leading zeros (`0` is `"0"`). -/
def formatUint (n : Nat) : List Char := formatUintAux (n + 1) n []

/-- `strconv.FormatInt(i, 10)`. -/
def FormatInt (i : Int) : String :=
  String.mk (if i < 0 then '-' :: formatUint i.natAbs else formatUint i.natAbs)

/-- Value of a string of decimal digits read after the value `acc`; `none` when a character is
not a digit. -/
def parseDigits : Nat → List Char → Option Nat
  | acc, [] => some acc
  | acc, c :: cs =>
    match digitVal c with
    | some d => parseDigits (acc * 10 + d) cs
    | none => none

/-- The unsigned part of `strconv.ParseInt(s, 10, 64)`: at least one character, all of them
decimal digits. -/
def parseUint (cs : List Char) : Option Nat :=
  if cs = [] then none else parseDigits 0 cs

/-- `strconv.ParseInt(s, 10, 64)`: an optional sign, then decimal digits; `none` stands for a
non-nil error (syntax error, or a value outside the `int64` range). -/
def ParseInt (s : String) : Option Int :=
  match s.data with
  | [] => none
  | '+' :: rest =>
    match parseUint rest with
    | some n => if n < 9223372036854775808 then some (n : Int) else none
    | none => none
  | '-' :: rest =>
    match parseUint rest with
    | some n => if n ≤ 9223372036854775808 then some (-(n : Int)) else none
    | none => none
  | c :: rest =>
    match parseUint (c :: rest) with
    | some n => if n < 9223372036854775808 then some (n : Int) else none
    | none => none

/-! ### The piece store -/

/-- The state of the resource provider `rp` as far as one piece touches it: the file under
`completed/<hash>` (if any) and the files of the directory `incompleted/<hash>`, by name, in
the order `Readdirnames` lists them (empty when the directory does not exist). The provider is
taken to be a plain key-addressed file store: capacity eviction of the file cache and I/O
failures of the disk are outside the model. -/
structure Provider where
  completed : Option Bytes
  incompleted : List (String × Bytes)
  deriving DecidableEq, Repr

/-- The part of `metainfo.Piece` the store uses besides the hash: `Length()`. -/
structure Piece where
  Length : Int
  deriving DecidableEq, Repr

/-- The `piecePerResourcePiece` struct of line 66; its provider `rp` is the `Provider` state
that every operation below takes as an argument and, when it writes, returns. -/
structure piecePerResourcePiece where
  mp : Piece
  deriving DecidableEq, Repr

/-- `storage.Completion`. -/
structure Completion where
  Complete : Bool
  Ok : Bool
  deriving DecidableEq, Repr

/-- `Instance.Put` on a file of the directory: create the file, or truncate it when it exists,
and store the bytes. -/
def putFile (dir : List (String × Bytes)) (name : String) (b : Bytes) : List (String × Bytes) :=
  if dir.any (fun e => e.1 = name) then dir.map (fun e => if e.1 = name then (name, b) else e)
  else dir ++ [(name, b)]

/-- `Instance.Delete` on a file of the directory. -/
def deleteFile (dir : List (String × Bytes)) (name : String) : List (String × Bytes) :=
  dir.filter (fun e => e.1 ≠ name)

/-- `s.completed()` (line 162): the instance under `completed/<hash>`. -/
def piecePerResourcePiece.completed (_s : piecePerResourcePiece) (rp : Provider) : Instance :=
  ⟨"completed", rp.completed⟩

/-- `Instance.Stat`: the file size, `none` (an error) when there is no file. -/
def Instance.Stat (i : Instance) : Option Int :=
  match i.file with
  | some d => some (d.length : Int)
  | none => none

/-- `Completion` (lines 71-77). -/
def piecePerResourcePiece.Completion (s : piecePerResourcePiece) (rp : Provider) : Completion :=
  match (s.completed rp).Stat with
  | some size => ⟨decide (size = s.mp.Length), true⟩
  | none => ⟨false, true⟩

/-- The comparison `sort.Slice` is given in `getChunks`, as its reflexive closure on offsets. -/
def chunk.le (a b : chunk) : Prop := a.offset ≤ b.offset

instance : DecidableRel chunk.le := fun a b => by
  unfold chunk.le; exact inferInstance

instance : IsTotal chunk chunk.le := ⟨fun a b => Int.le_total a.offset b.offset⟩

instance : IsTrans chunk chunk.le := ⟨fun _ _ _ h1 h2 => Int.le_trans h1 h2⟩

/-- `getChunks` (lines 140-160): every directory entry whose name parses as an `int64` becomes
a chunk; the chunks are then sorted by offset. `sort.Slice` is not stable and leaves the order
of chunks with equal offsets (names such as `5`, `+5`, `05`) unspecified; the model keeps them
in directory order. When the offsets are pairwise distinct, as in every state built by `WriteAt`
alone, the sorted order is the only one possible. -/
def piecePerResourcePiece.getChunks (_s : piecePerResourcePiece) (rp : Provider) : chunks :=
  List.insertionSort chunk.le
    (rp.incompleted.filterMap (fun e =>
      match ParseInt e.1 with
      | some offset => some ⟨offset, ⟨e.1, some e.2⟩⟩
      | none => none))

/-- `io.SectionReader.Read` for the reader `io.NewSectionReader(r, 0, limit)` at its current
offset `off` with a buffer of `plen` bytes: end of data at the limit, otherwise `r.ReadAt` into
the buffer, cut to the bytes left before the limit. Returns the result and the new offset. -/
def SectionReader.Read (r : chunks) (limit : Int) (off : Int) (plen : Nat) : ReadResult × Int :=
  if off ≥ limit then (⟨[], some Err.EOF⟩, off)
  else
    let max := wrap64 (limit - off)
    let res := chunks.ReadAt r (if (plen : Int) > max then max.toNat else plen) off
    (res, wrap64 (off + (res.n : Int)))

/-- The loop of `io.Copy` from that section reader into a freshly truncated file, with its
32 KiB buffer: the bytes of every `Read` are appended to the file, `io.EOF` ends the copy
without error, any other error ends it with that error. `fuel` bounds the number of `Read`
calls; `none` means the bound was reached. -/
def ioCopy (r : chunks) (limit : Int) : Nat → Int → Bytes → Option (Bytes × Option Err)
  | 0, _, _ => none
  | fuel + 1, off, written =>
    let step := SectionReader.Read r limit off 32768
    match step.1.err with
    | none => ioCopy r limit fuel step.2 (written ++ step.1.data)
    | some Err.EOF => some (written ++ step.1.data, none)
    | some e => some (written ++ step.1.data, some e)

/-- `MarkComplete` (lines 79-88). `Put` opens the completed file with create-and-truncate and
copies the section `[0, Length)` of the chunk list into it; when it returns `nil`, every chunk
instance is deleted. A `Read` that returns no error delivers at least one byte, so the copy
needs at most `Length + 1` reads; `none` would mean that this bound was exceeded. -/
def piecePerResourcePiece.MarkComplete (s : piecePerResourcePiece) (rp : Provider) :
    Option (Option Err × Provider) :=
  let incompleteChunks := s.getChunks rp
  match ioCopy incompleteChunks s.mp.Length (s.mp.Length.toNat + 1) 0 [] with
  | none => none
  | some (written, err) =>
    if err = none then
      some (none, ⟨some written,
        incompleteChunks.foldl (fun dir c => deleteFile dir c.instance_.key) rp.incompleted⟩)
    else some (err, ⟨some written, rp.incompleted⟩)

/-- `MarkNotComplete` (lines 90-92): delete the completed instance. -/
def piecePerResourcePiece.MarkNotComplete (_s : piecePerResourcePiece) (rp : Provider) :
    Provider :=
  ⟨none, rp.incompleted⟩

/-- `ReadAt` of a piece (lines 94-99). -/
def piecePerResourcePiece.ReadAt (s : piecePerResourcePiece) (rp : Provider) (blen : Nat)
    (off : Int) : ReadResult :=
  if (s.Completion rp).Complete then (s.completed rp).ReadAt blen off
  else chunks.ReadAt (s.getChunks rp) blen off

/-- `WriteAt` (lines 101-110): the bytes are `Put` under the name `FormatInt(off, 10)` in the
directory of incomplete chunks; all of `b` is consumed, so `n = len(b)` and `err = nil`. -/
def piecePerResourcePiece.WriteAt (_s : piecePerResourcePiece) (rp : Provider) (b : Bytes)
    (off : Int) : (Nat × Option Err) × Provider :=
  ((b.length, none), ⟨rp.completed, putFile rp.incompleted (FormatInt off) b⟩)

/-- A write call `WriteAt(b, off)`. -/
structure Write where
  off : Int
  b : Bytes
  deriving DecidableEq, Repr

/-- The provider state after a sequence of `WriteAt` calls, issued in list order. -/
def writeAll (s : piecePerResourcePiece) (rp : Provider) (ws : List Write) : Provider :=
  ws.foldl (fun st w => (s.WriteAt st w.b w.off).2) rp

/-! ## Part 2: the upload pipeline -/

/-- The `GDUploadChunk` struct of line 249; `chunk` is the content of the `bytes.Buffer`
handed to the uploader. -/
structure GDUploadChunk where
  startOff : Int
  endOff : Int
  chunk : Bytes
  eof : Bool
  deriving DecidableEq, Repr

/-- The size of the window `buf` allocated in `continueUpload` (line 263). -/
def windowSize : Nat := 16 * 1024 * 1024

/-- How a run of the producer loop ended: it sent the `eof` unit and stopped (`done`), it hit
`log.Fatal` on a read error other than `io.EOF` (`fatal`), or the reader results given were
used up while the loop was still reading (`reading`). -/
inductive Outcome where
  | done
  | fatal
  | reading
  deriving DecidableEq, Repr

/-- The producer loop of `continueUpload` (lines 264-287) as a function of the successive
results of `f.reader.Read(buf)`. `startOff` and `buf` are the loop variables; a read stores
its `n` bytes in `buf[:n]` and leaves the rest of `buf` as it was. The `eof` unit carries
`buf[:n]`, every other unit carries the whole of `buf`. Returns the units sent on
`uploadChan`, in order, and how the loop ended. The `chunk` of a unit is the content of the
window at the moment the unit is sent: in the source every `bytes.Buffer` shares the one array
`buf`, which later reads overwrite, so only the offsets, the flags and the lengths of the
payloads are meaningful once the loop has gone on. -/
def producerLoop (startOff : Int) (buf : Bytes) : List ReadResult → List GDUploadChunk × Outcome
  | [] => ([], Outcome.reading)
  | r :: rest =>
    let n := r.data.length
    let buf1 := r.data ++ buf.drop n
    match r.err with
    | some Err.EOF =>
      ([⟨startOff, wrap64 (wrap64 (startOff + (n : Int)) - 1), buf1.take n, true⟩], Outcome.done)
    | some Err.other => ([], Outcome.fatal)
    | none =>
      let next := producerLoop (wrap64 (startOff + (n : Int))) buf1 rest
      (⟨startOff, wrap64 (wrap64 (startOff + (n : Int)) - 1), buf1, false⟩ :: next.1, next.2)

/-- The producer of `continueUpload`: the loop started with `startOff := 0` and a zeroed
window of `w` bytes. -/
def producer (w : Nat) (reads : List ReadResult) : List GDUploadChunk × Outcome :=
  producerLoop 0 (List.replicate w 0) reads

/-- The producer with the window size of the source, `16*1024*1024`. -/
def continueUpload (reads : List ReadResult) : List GDUploadChunk × Outcome :=
  producer windowSize reads

/-- One `Read(buf)` of `torrent.Reader` at position `pos` of an object, when the data is
available: it fills the buffer up to the end of the object and reports `io.EOF` together with
the bytes that reach the end (and with no bytes when already there). `blen` is `len(buf)`. -/
def objectRead (obj : Bytes) (pos : Nat) (blen : Nat) : ReadResult :=
  ⟨(obj.drop pos).take blen,
    if obj.length ≤ pos + ((obj.drop pos).take blen).length then some Err.EOF else none⟩

/-- The results of successive window-filling reads of an object from position `pos` on, up to
and including the read that reports `io.EOF`; `fuel` bounds the number of reads. -/
def objectReads (obj : Bytes) (w : Nat) : Nat → Nat → List ReadResult
  | 0, _ => []
  | fuel + 1, pos =>
    let r := objectRead obj pos w
    match r.err with
    | none => r :: objectReads obj w fuel (pos + r.data.length)
    | some _ => [r]

/-- `detetctMime` (lines 390-399) as far as it decides whether the upload goes on: it reads into
a buffer of 512 bytes from the start of the object and panics on any error of that read,
`io.EOF` included; otherwise it seeks back to offset 0. `none` is the panic. -/
def detetctMime (obj : Bytes) : Option Unit :=
  match (objectRead obj 0 512).err with
  | none => some ()
  | some _ => none

/-- `startUpload` (lines 208-224) as far as the producer is concerned: `initUpload` runs
`detetctMime` first, and `continueUpload` starts the producer loop only when that did not
panic. `w` is the window size, `windowSize` in the source; `none` is the panic. -/
def startUpload (w : Nat) (obj : Bytes) (fuel : Nat) : Option (List GDUploadChunk × Outcome) :=
  match detetctMime obj with
  | none => none
  | some _ => some (producer w (objectReads obj w fuel 0))

/-- Operands of `fmt.Sprintf` left over after the format is used up, as Go prints them. -/
def sprintfExtra : List Int → List Char
  | [] => []
  | [a] => "int=".data ++ (FormatInt a).data
  | a :: as => "int=".data ++ (FormatInt a).data ++ ", ".data ++ sprintfExtra as

/-- `fmt.Sprintf` for formats whose only verb is `%d`, with `int` operands: every `%d` is
replaced by the decimal form of the next operand, any other character is copied. -/
def sprintfChars : List Char → List Int → List Char
  | [], [] => []
  | [], a :: as => "%!(EXTRA ".data ++ sprintfExtra (a :: as) ++ [')']
  | '%' :: 'd' :: cs, a :: as => (FormatInt a).data ++ sprintfChars cs as
  | '%' :: 'd' :: cs, [] => "%!d(MISSING)".data ++ sprintfChars cs []
  | c :: cs, as => c :: sprintfChars cs as

/-- `fmt.Sprintf(format, args...)`. -/
def Sprintf (format : String) (args : List Int) : String :=
  String.mk (sprintfChars format.data args)

/-- The `Content-Range` header value `crange` that `uploadChunk` computes for a unit
(lines 295-301). -/
def uploadChunk.crange (uchunk : GDUploadChunk) : String :=
  if uchunk.eof then
    Sprintf "bytes %d-%d/%d" [uchunk.startOff, uchunk.endOff, wrap64 (uchunk.endOff + 1)]
  else
    Sprintf "bytes %d-%d/*" [uchunk.startOff, uchunk.endOff]

/-! ### Coverage vocabulary used by the statements about `chunks.ReadAt` -/

/-- Number of bytes stored in the instance of a chunk (0 when the file is missing). -/
def chunk.size (c : chunk) : Nat := (c.instance_.file.getD []).length

/-- Chunk `c` covers byte position `p` of the piece: `offset ≤ p < offset + size`. -/
def chunk.covers (c : chunk) (p : Int) : Prop :=
  c.offset ≤ p ∧ p < c.offset + (c.size : Int)

instance (c : chunk) (p : Int) : Decidable (c.covers p) := by
  unfold chunk.covers; exact inferInstance

/-- The byte chunk `c` stores for position `p` of the piece, if it covers `p`. -/
def chunk.byteAt (c : chunk) (p : Int) : Option Nat :=
  if c.offset ≤ p then (c.instance_.file.getD [])[(p - c.offset).toNat]? else none

/-- Some chunk of the list covers position `p`. -/
def covered (me : chunks) (p : Int) : Prop := ∃ c ∈ me, c.covers p

/-- The first chunk of the list, in list order, that covers position `p`. -/
def firstCovering (me : chunks) (p : Int) : Option chunk :=
  me.find? (fun c => decide (c.covers p))

/-- The list is sorted by ascending offset, as `sort.Slice` leaves it in `getChunks`. -/
def offsetSorted (me : chunks) : Prop :=
  me.Pairwise (fun a b => a.offset ≤ b.offset)

instance (me : chunks) : Decidable (offsetSorted me) := by
  unfold offsetSorted; exact inferInstance

instance (me : chunks) (p : Int) : Decidable (covered me p) := by
  unfold covered; exact inferInstance

/-- The bytes `data` are what a read of up to `blen` bytes at cursor `off` must deliver when
every byte comes from the first chunk covering its position and the read stops at the first
position no chunk covers. -/
def Serves (me : chunks) (blen : Nat) (off : Int) (data : Bytes) : Prop :=
  data.length ≤ blen ∧
  (∀ i : Nat, i < data.length →
    ∃ c, firstCovering me (off + (i : Int)) = some c ∧
      data[i]? = c.byteAt (off + (i : Int)) ∧ (c.byteAt (off + (i : Int))).isSome) ∧
  (data.length < blen → ¬ covered me (off + (data.length : Int)))

/-- The latest chunk at a cursor in the words of the specification: the highest-offset chunk
of an offset-sorted list whose offset is less than or equal to the cursor. -/
def latestStarting (me : chunks) (cursor : Int) : Option chunk :=
  (me.filter (fun c => decide (c.offset ≤ cursor))).getLast?

/-- The read of `blen` bytes at `off` serves every byte it returns from the latest chunk at
the cursor of that byte. -/
def servesLatest (me : chunks) (blen : Nat) (off : Int) : Prop :=
  ∀ i : Nat, i < (chunks.ReadAt me blen off).n →
    (chunks.ReadAt me blen off).data[i]? =
      (latestStarting me (off + (i : Int))).bind (fun c => c.byteAt (off + (i : Int)))

/-- The byte ranges of two writes do not overlap. -/
def Write.disjoint (a b : Write) : Prop :=
  a.off + (a.b.length : Int) ≤ b.off ∨ b.off + (b.b.length : Int) ≤ a.off

instance : DecidableRel Write.disjoint := fun a b => by
  unfold Write.disjoint; exact inferInstance

/-- The byte ranges of the writes lie in `[0, length)`, are pairwise non-overlapping, and
every position of `[0, length)` lies in one of them: they cover `[0, length)` exactly once. -/
def coversExactlyOnce (length : Int) (ws : List Write) : Prop :=
  (∀ w ∈ ws, 0 ≤ w.off ∧ w.off + (w.b.length : Int) ≤ length) ∧
  ws.Pairwise Write.disjoint ∧
  (∀ p : Int, 0 ≤ p → p < length → ∃ w ∈ ws, w.off ≤ p ∧ p < w.off + (w.b.length : Int))

/-- The offsets of the chunks held in the store: the values of the names in the directory of
the piece that parse as an `int64`, in directory order. -/
def storedOffsets (rp : Provider) : List Int :=
  rp.incompleted.filterMap (fun e => ParseInt e.1)

/-- The directory entry `e` is a chunk that covers position `p` of the piece: its name parses to
an offset `o` with `o ≤ p < o + len(e)`. -/
def entryCovers (e : String × Bytes) (p : Int) : Prop :=
  ∃ o, ParseInt e.1 = some o ∧ o ≤ p ∧ p < o + (e.2.length : Int)

instance (e : String × Bytes) (p : Int) : Decidable (entryCovers e p) :=
  match h : ParseInt e.1 with
  | none => isFalse (fun ⟨o, ho, _⟩ => by rw [h] at ho; cases ho)
  | some o =>
    if h2 : o ≤ p ∧ p < o + (e.2.length : Int) then isTrue ⟨o, h, h2⟩
    else isFalse (fun ⟨o2, ho2, h3⟩ => by
      rw [h] at ho2
      cases ho2
      exact h2 h3)

/-- Some chunk held in the store covers position `p`. -/
def storeCovered (rp : Provider) (p : Int) : Prop :=
  ∃ e ∈ rp.incompleted, entryCovers e p

instance (rp : Provider) (p : Int) : Decidable (storeCovered rp p) := by
  unfold storeCovered; exact inferInstance

/-- The directory entry `e` is a chunk at offset `o` that covers position `p`, and no chunk
held in the store that covers `p` has a lower offset. -/
def lowestCovering (rp : Provider) (e : String × Bytes) (o : Int) (p : Int) : Prop :=
  e ∈ rp.incompleted ∧ ParseInt e.1 = some o ∧ o ≤ p ∧ p < o + (e.2.length : Int) ∧
  ∀ e2 ∈ rp.incompleted, ∀ o2 : Int,
    ParseInt e2.1 = some o2 → o2 ≤ p → p < o2 + (e2.2.length : Int) → o ≤ o2

/-- The number `ceil(l / w)` of windows of `w` bytes needed for `l` bytes. -/
def ceilDiv (l w : Nat) : Nat := (l + w - 1) / w

/-! ## Lemmas about `chunks.ReadAt` -/

theorem wrap64_eq {x : Int} (h1 : -9223372036854775808 ≤ x) (h2 : x < 9223372036854775808) :
    wrap64 x = x := by
  unfold wrap64; omega

theorem Instance.ReadAt_present (i : Instance) (d : Bytes) (hd : i.file = some d)
    (blen : Nat) (off : Int) (hoff : 0 ≤ off) :
    i.ReadAt blen off =
      ⟨(d.drop off.toNat).take blen,
        if ((d.drop off.toNat).take blen).length = blen then none else some Err.EOF⟩ := by
  unfold Instance.ReadAt
  rw [hd]
  simp only
  rw [if_neg (by omega)]

theorem chunks.ReadAt_all_gt (me : chunks) (blen : Nat) (off : Int)
    (h : ∀ c ∈ me, off < c.offset) : chunks.ReadAt me blen off = ⟨[], some Err.EOF⟩ := by
  induction me with
  | nil => rfl
  | cons c rest ih =>
    have hc : ¬ c.offset ≤ off := by
      have := h c (List.mem_cons_self _ _); omega
    rw [chunks.ReadAt, if_neg hc]
    exact ih (fun c' hc' => h c' (List.mem_cons_of_mem _ hc'))

/-- What one chunk contributes: reading `blen` bytes at cursor `off ≥ c.offset` from a present
instance yields `min blen (size - (off - offset))` bytes. -/
theorem chunk.read_data (c : chunk) (d : Bytes) (hd : c.instance_.file = some d)
    (blen : Nat) (off : Int) (hle : c.offset ≤ off) :
    (c.instance_.ReadAt blen (off - c.offset)).data = (d.drop (off - c.offset).toNat).take blen ∧
    ((c.instance_.ReadAt blen (off - c.offset)).err = none ∨
      (c.instance_.ReadAt blen (off - c.offset)).err = some Err.EOF) ∧
    (c.instance_.ReadAt blen (off - c.offset)).n = min blen (d.length - (off - c.offset).toNat) := by
  rw [Instance.ReadAt_present _ d hd blen _ (by omega)]
  refine ⟨rfl, ?_, ?_⟩
  · simp only
    split <;> simp
  · simp [ReadResult.n, List.length_take, List.length_drop]

/-- Functional description of `chunks.ReadAt` on an offset-sorted list whose instances are all
present, when no `int64` operation wraps. -/
theorem chunks.ReadAt_sorted (me : chunks) :
    ∀ (blen : Nat) (off : Int), offsetSorted me →
      (∀ c ∈ me, c.instance_.file ≠ none) →
      (∀ c ∈ me, off + (blen : Int) - c.offset < 9223372036854775808) →
      -9223372036854775808 ≤ off → off + (blen : Int) < 9223372036854775808 →
      (chunks.ReadAt me blen off).n ≤ blen ∧
      ((chunks.ReadAt me blen off).err = none ∨ (chunks.ReadAt me blen off).err = some Err.EOF) ∧
      ((chunks.ReadAt me blen off).err = none → (chunks.ReadAt me blen off).n = blen) ∧
      ((chunks.ReadAt me blen off).n = blen → 0 < blen → (chunks.ReadAt me blen off).err = none) ∧
      (∀ i : Nat, i < (chunks.ReadAt me blen off).n →
        ∃ c, firstCovering me (off + (i : Int)) = some c ∧
          (chunks.ReadAt me blen off).data[i]? = c.byteAt (off + (i : Int)) ∧
          (c.byteAt (off + (i : Int))).isSome) ∧
      ((chunks.ReadAt me blen off).n < blen →
        ∀ c ∈ me, ¬ c.covers (off + ((chunks.ReadAt me blen off).n : Int))) := by
  induction me with
  | nil =>
    intro blen off _ _ _ _ _
    simp [chunks.ReadAt, ReadResult.n]
    omega
  | cons c rest ih =>
    intro blen off hs hp hrel hoff hwin
    have hs' : offsetSorted rest := (List.pairwise_cons.mp hs).2
    have hhead : ∀ c' ∈ rest, c.offset ≤ c'.offset := (List.pairwise_cons.mp hs).1
    have hp' : ∀ c' ∈ rest, c'.instance_.file ≠ none :=
      fun c' h => hp c' (List.mem_cons_of_mem _ h)
    by_cases hle : c.offset ≤ off
    · obtain ⟨d, hd⟩ := Option.ne_none_iff_exists'.mp (hp c (List.mem_cons_self _ _))
      have hrelc := hrel c (List.mem_cons_self _ _)
      have hw : wrap64 (off - c.offset) = off - c.offset := wrap64_eq (by omega) (by omega)
      obtain ⟨hdata, herr, hn⟩ := chunk.read_data c d hd blen off hle
      have hsize : c.size = d.length := by simp [chunk.size, hd]
      -- bytes served by the head chunk
      have hserve : ∀ i : Nat, i < min blen (d.length - (off - c.offset).toNat) →
          firstCovering (c :: rest) (off + (i : Int)) = some c ∧
          ((d.drop (off - c.offset).toNat).take blen)[i]? = c.byteAt (off + (i : Int)) ∧
          (c.byteAt (off + (i : Int))).isSome := by
        intro i hi
        have hcov : c.covers (off + (i : Int)) := by
          unfold chunk.covers; rw [hsize]; omega
        have hidx : (off + (i : Int) - c.offset).toNat = (off - c.offset).toNat + i := by omega
        refine ⟨?_, ?_, ?_⟩
        · simp [firstCovering, List.find?_cons, hcov]
        · unfold chunk.byteAt
          rw [if_pos (by omega), hd, hidx]
          simp only [Option.getD_some]
          rw [List.getElem?_take_of_lt (by omega), List.getElem?_drop]
        · unfold chunk.byteAt
          rw [if_pos (by omega), hd, hidx]
          simp only [Option.getD_some]
          rw [List.getElem?_eq_getElem (by omega)]
          rfl
      by_cases hfull : (c.instance_.ReadAt blen (off - c.offset)).n = blen
      · have hR : chunks.ReadAt (c :: rest) blen off =
            ⟨(c.instance_.ReadAt blen (off - c.offset)).data, none⟩ := by
          rw [chunks.ReadAt, if_pos hle, hw]
          simp only [hfull, if_true]
        have hRn : (chunks.ReadAt (c :: rest) blen off).n = blen := by
          rw [hR]; exact hfull
        refine ⟨by omega, Or.inl (by rw [hR]), fun _ => hRn, fun _ _ => by rw [hR], ?_, ?_⟩
        · intro i hi
          rw [hRn] at hi
          rw [hn] at hfull
          obtain ⟨h1, h2, h3⟩ := hserve i (by omega)
          refine ⟨c, h1, ?_, h3⟩
          rw [hR]; simp only; rw [hdata]; exact h2
        · intro hlt; omega
      · -- short read from the head chunk: continue in the tail
        have hn0 : (c.instance_.ReadAt blen (off - c.offset)).n < blen := by
          rw [hn] at hfull ⊢; omega
        have hn0' : (c.instance_.ReadAt blen (off - c.offset)).n =
            d.length - (off - c.offset).toNat := by
          rw [hn] at hn0 ⊢; omega
        set n0 := (c.instance_.ReadAt blen (off - c.offset)).n with hn0def
        have hw2 : wrap64 (off + (n0 : Int)) = off + (n0 : Int) :=
          wrap64_eq (by omega) (by omega)
        have hR : chunks.ReadAt (c :: rest) blen off =
            ⟨(c.instance_.ReadAt blen (off - c.offset)).data ++
              (chunks.ReadAt rest (blen - n0) (off + (n0 : Int))).data,
              (chunks.ReadAt rest (blen - n0) (off + (n0 : Int))).err⟩ := by
          rw [chunks.ReadAt, if_pos hle, hw]
          simp only
          rw [if_neg hfull, if_pos herr, ← hn0def, hw2]
        have hIH := ih (blen - n0) (off + (n0 : Int)) hs' hp'
          (fun c' h => by
            have := hrel c' (List.mem_cons_of_mem _ h)
            omega)
          (by omega) (by omega)
        obtain ⟨i1, i2, i3, i4, i5, i6⟩ := hIH
        set r2 := chunks.ReadAt rest (blen - n0) (off + (n0 : Int)) with hr2
        have hRn : (chunks.ReadAt (c :: rest) blen off).n = n0 + r2.n := by
          rw [hR]; simp [ReadResult.n, hn0def]
        have hnocov : ∀ p : Int, off + (n0 : Int) ≤ p → ¬ c.covers p := by
          intro p hp hc
          unfold chunk.covers at hc
          rw [hsize] at hc
          omega
        refine ⟨by omega, by rw [hR]; exact i2, ?_, ?_, ?_, ?_⟩
        · intro h
          rw [hR] at h
          have := i3 h
          omega
        · intro h hb
          rw [hR]
          exact i4 (by omega) (by omega)
        · intro i hi
          by_cases hlt : i < n0
          · obtain ⟨h1, h2, h3⟩ := hserve i (by rw [← hn]; exact hlt)
            refine ⟨c, h1, ?_, h3⟩
            rw [hR]; simp only
            rw [List.getElem?_append_left (by simpa [ReadResult.n] using hlt), hdata]
            exact h2
          · obtain ⟨c', h1, h2, h3⟩ := i5 (i - n0) (by omega)
            have hcast : off + (n0 : Int) + ((i - n0 : Nat) : Int) = off + (i : Int) := by omega
            rw [hcast] at h1 h2 h3
            refine ⟨c', ?_, ?_, h3⟩
            · unfold firstCovering at h1 ⊢
              rw [List.find?_cons]
              have : ¬ c.covers (off + (i : Int)) := hnocov _ (by omega)
              simp only [this, decide_False]
              exact h1
            · rw [hR]; simp only
              rw [List.getElem?_append_right (by simp [ReadResult.n] at hn0def; omega)]
              have : i - (c.instance_.ReadAt blen (off - c.offset)).data.length = i - n0 := by
                simp [ReadResult.n] at hn0def; omega
              rw [this]
              exact h2
        · intro hlt c' hc'
          rw [hRn]
          rcases List.mem_cons.mp hc' with rfl | hmem
          · exact hnocov _ (by omega)
          · have := i6 (by omega) c' hmem
            have hcast : off + (n0 : Int) + (r2.n : Int) = off + ((n0 + r2.n : Nat) : Int) := by
              push_cast; ring
            rw [hcast] at this
            exact this
    · -- the head starts after the cursor; so does every later chunk
      have hall : ∀ c' ∈ rest, off < c'.offset := fun c' h => by
        have := hhead c' h; omega
      have hR : chunks.ReadAt (c :: rest) blen off = ⟨[], some Err.EOF⟩ := by
        rw [chunks.ReadAt, if_neg hle]
        exact chunks.ReadAt_all_gt rest blen off hall
      rw [hR]
      simp only [ReadResult.n, List.length_nil]
      refine ⟨by omega, by simp, fun h => by simp at h, fun h hb => by omega, ?_, ?_⟩
      · intro i hi; omega
      · intro _ c' hc'
        unfold chunk.covers
        rcases List.mem_cons.mp hc' with rfl | hmem
        · simp; omega
        · have := hall c' hmem
          simp; omega

theorem firstCovering_some {me : chunks} {p : Int} {c : chunk}
    (h : firstCovering me p = some c) : c ∈ me ∧ c.covers p := by
  unfold firstCovering at h
  refine ⟨List.mem_of_find?_eq_some h, ?_⟩
  have := List.find?_some h
  simpa using this

theorem firstCovering_lowest (me : chunks) (hs : offsetSorted me) (p : Int) (c : chunk)
    (h : firstCovering me p = some c) : ∀ c2 ∈ me, c2.covers p → c.offset ≤ c2.offset := by
  induction me with
  | nil => intro c2 hc2; simp at hc2
  | cons a rest ih =>
    intro c2 hc2 hcov
    have hhead : ∀ x ∈ rest, a.offset ≤ x.offset := (List.pairwise_cons.mp hs).1
    unfold firstCovering at h
    rw [List.find?_cons] at h
    by_cases ha : a.covers p
    · simp only [ha, decide_True, Option.some.injEq] at h
      subst h
      rcases List.mem_cons.mp hc2 with rfl | hmem
      · exact le_refl _
      · exact hhead c2 hmem
    · simp only [ha, decide_False] at h
      rcases List.mem_cons.mp hc2 with rfl | hmem
      · exact absurd hcov ha
      · exact ih (List.pairwise_cons.mp hs).2 h c2 hmem hcov

theorem exists_uncovered (me : chunks) (off : Int) : ∃ p : Int, off ≤ p ∧ ¬ covered me p := by
  have hbound : ∃ m : Int, ∀ c ∈ me, c.offset + (c.size : Int) ≤ m := by
    induction me with
    | nil => exact ⟨0, fun c hc => by simp at hc⟩
    | cons a rest ih =>
      obtain ⟨m, hm⟩ := ih
      refine ⟨max m (a.offset + (a.size : Int)), fun c hc => ?_⟩
      rcases List.mem_cons.mp hc with rfl | h
      · exact le_max_right _ _
      · exact le_trans (hm c h) (le_max_left _ _)
  obtain ⟨m, hm⟩ := hbound
  refine ⟨max off m, le_max_left _ _, ?_⟩
  rintro ⟨c, hc, -, hlt⟩
  have h1 := hm c hc
  have h2 : m ≤ max off m := le_max_right _ _
  omega

/-! ## Lemmas about `Serves` -/

theorem chunks.ReadAt_serves (me : chunks) (blen : Nat) (off : Int) (hs : offsetSorted me)
    (hp : ∀ c ∈ me, c.instance_.file ≠ none)
    (hrel : ∀ c ∈ me, off + (blen : Int) - c.offset < 9223372036854775808)
    (hoff : -9223372036854775808 ≤ off) (hwin : off + (blen : Int) < 9223372036854775808) :
    Serves me blen off (chunks.ReadAt me blen off).data := by
  obtain ⟨h1, -, -, -, h5, h6⟩ := chunks.ReadAt_sorted me blen off hs hp hrel hoff hwin
  refine ⟨h1, h5, ?_⟩
  intro hlt ⟨c, hc, hcov⟩
  exact h6 hlt c hc hcov

theorem Serves.covered_of_lt {me : chunks} {blen : Nat} {off : Int} {d : Bytes}
    (h : Serves me blen off d) {i : Nat} (hi : i < d.length) : covered me (off + (i : Int)) := by
  obtain ⟨c, hc, -, -⟩ := h.2.1 i hi
  exact ⟨c, (firstCovering_some hc).1, (firstCovering_some hc).2⟩

theorem Serves.length_le {me : chunks} {b1 b2 : Nat} {off : Int} {d1 d2 : Bytes}
    (h1 : Serves me b1 off d1) (h2 : Serves me b2 off d2) (hb : b1 ≤ b2) :
    d1.length ≤ d2.length := by
  by_contra hlt
  have hlt : d2.length < d1.length := by omega
  exact h2.2.2 (by have := h1.1; omega) (h1.covered_of_lt hlt)

theorem Serves.getElem?_eq {me : chunks} {b1 b2 : Nat} {off : Int} {d1 d2 : Bytes}
    (h1 : Serves me b1 off d1) (h2 : Serves me b2 off d2) {i : Nat}
    (hi1 : i < d1.length) (hi2 : i < d2.length) : d1[i]? = d2[i]? := by
  obtain ⟨c1, hc1, he1, -⟩ := h1.2.1 i hi1
  obtain ⟨c2, hc2, he2, -⟩ := h2.2.1 i hi2
  rw [hc1] at hc2
  cases hc2
  rw [he1, he2]

theorem Serves.unique {me : chunks} {blen : Nat} {off : Int} {d1 d2 : Bytes}
    (h1 : Serves me blen off d1) (h2 : Serves me blen off d2) : d1 = d2 := by
  have hl : d1.length = d2.length :=
    Nat.le_antisymm (h1.length_le h2 (Nat.le_refl _)) (h2.length_le h1 (Nat.le_refl _))
  apply List.ext_getElem?
  intro i
  by_cases hi : i < d1.length
  · exact h1.getElem?_eq h2 hi (by omega)
  · rw [List.getElem?_eq_none (by omega), List.getElem?_eq_none (by omega)]

theorem Serves.mono {me : chunks} {a b : Nat} {off : Int} {d : Bytes}
    (h : Serves me a off d) (hshort : d.length < a) (hab : a ≤ b) : Serves me b off d :=
  ⟨by omega, h.2.1, fun _ => h.2.2 hshort⟩

theorem Serves.append {me : chunks} {a b : Nat} {off : Int} {d1 d2 : Bytes}
    (h1 : Serves me a off d1) (hfull : d1.length = a) (h2 : Serves me b (off + (a : Int)) d2) :
    Serves me (a + b) off (d1 ++ d2) := by
  refine ⟨by have := h2.1; simp; omega, ?_, ?_⟩
  · intro i hi
    by_cases hlt : i < d1.length
    · obtain ⟨c, hc, he, hsome⟩ := h1.2.1 i hlt
      exact ⟨c, hc, by rw [List.getElem?_append_left hlt]; exact he, hsome⟩
    · have hi2 : i - a < d2.length := by simp at hi; omega
      obtain ⟨c, hc, he, hsome⟩ := h2.2.1 (i - a) hi2
      have hcast : off + (a : Int) + ((i - a : Nat) : Int) = off + (i : Int) := by omega
      rw [hcast] at hc he hsome
      refine ⟨c, hc, ?_, hsome⟩
      rw [List.getElem?_append_right (by omega), hfull]
      exact he
  · intro hlt
    have hlt2 : d2.length < b := by simp at hlt; omega
    have := h2.2.2 hlt2
    have hcast : off + (a : Int) + (d2.length : Int) = off + ((d1 ++ d2).length : Int) := by
      simp; omega
    rw [hcast] at this
    exact this

/-! ## Lemmas about `io.Copy` from the section reader -/

theorem ioCopy_serves (me : chunks) (limit : Int) (hs : offsetSorted me)
    (hp : ∀ c ∈ me, c.instance_.file ≠ none)
    (hrep : ∀ c ∈ me, limit - c.offset < 9223372036854775808)
    (hlim : limit < 9223372036854775808) :
    ∀ (fuel : Nat) (off : Int) (written : Bytes), 0 ≤ off → off ≤ limit →
      (limit - off).toNat < fuel →
      ∃ d, ioCopy me limit fuel off written = some (written ++ d, none) ∧
        Serves me (limit - off).toNat off d := by
  intro fuel
  induction fuel with
  | zero => intro off written _ _ h; omega
  | succ fuel ih =>
    intro off written hoff hle hfuel
    by_cases hend : off ≥ limit
    · have hSR : SectionReader.Read me limit off 32768 = (⟨[], some Err.EOF⟩, off) := by
        unfold SectionReader.Read; rw [if_pos hend]
      refine ⟨[], ?_, ?_⟩
      · rw [ioCopy]; simp only [hSR]
      · have : (limit - off).toNat = 0 := by omega
        rw [this]
        exact ⟨by simp, fun i hi => by simp at hi, fun h => by simp at h⟩
    · have hmax : wrap64 (limit - off) = limit - off := wrap64_eq (by omega) (by omega)
      set plen : Nat := if ((32768 : Nat) : Int) > limit - off then (limit - off).toNat else 32768
        with hplen
      have hplen_pos : 0 < plen := by rw [hplen]; split <;> omega
      have hplen_le : (plen : Int) ≤ limit - off := by rw [hplen]; split <;> omega
      have hserve : Serves me plen off (chunks.ReadAt me plen off).data :=
        chunks.ReadAt_serves me plen off hs hp
          (fun c hc => by have := hrep c hc; omega) (by omega) (by omega)
      obtain ⟨g1, g2, g3, g4, -, -⟩ := chunks.ReadAt_sorted me plen off hs hp
        (fun c hc => by have := hrep c hc; omega) (by omega) (by omega)
      have hSR : SectionReader.Read me limit off 32768 =
          (chunks.ReadAt me plen off,
            wrap64 (off + ((chunks.ReadAt me plen off).n : Int))) := by
        unfold SectionReader.Read
        rw [if_neg hend]
        simp only [hmax]
      have hw : wrap64 (off + ((chunks.ReadAt me plen off).n : Int)) =
          off + ((chunks.ReadAt me plen off).n : Int) := wrap64_eq (by omega) (by omega)
      rcases g2 with hnone | heof
      · -- a full buffer: the copy goes on
        have hn : (chunks.ReadAt me plen off).n = plen := g3 hnone
        obtain ⟨d, hd, hsd⟩ := ih (off + (plen : Int))
          (written ++ (chunks.ReadAt me plen off).data) (by omega) (by omega) (by omega)
        refine ⟨(chunks.ReadAt me plen off).data ++ d, ?_, ?_⟩
        · rw [ioCopy]
          simp only [hSR, hnone]
          rw [hw, hn, hd, List.append_assoc]
        · have hsplit : (limit - off).toNat = plen + (limit - (off + (plen : Int))).toNat := by
            omega
          rw [hsplit]
          exact Serves.append hserve hn hsd
      · -- a short read: the copy ends without error
        have hshort : (chunks.ReadAt me plen off).data.length < plen := by
          have h1 : (chunks.ReadAt me plen off).n ≠ plen := by
            intro h
            have := g4 h hplen_pos
            rw [heof] at this
            cases this
          simp only [ReadResult.n] at h1 g1
          omega
        refine ⟨(chunks.ReadAt me plen off).data, ?_, ?_⟩
        · rw [ioCopy]
          simp only [hSR, heof]
        · exact Serves.mono hserve hshort (by omega)

/-! ## Lemmas about `strconv` -/

theorem digitVal_digitChar (d : Nat) (h : d < 10) : digitVal (digitChar d) = some d := by
  interval_cases d <;> rfl

theorem formatUintAux_eq (n : Nat) : ∀ (fuel : Nat) (acc : List Char), n < fuel →
    formatUintAux fuel n acc = formatUint n ++ acc := by
  induction n using Nat.strong_induction_on with
  | _ n ih =>
    intro fuel acc hf
    obtain ⟨f, rfl⟩ : ∃ f, fuel = f + 1 := ⟨fuel - 1, by omega⟩
    unfold formatUint
    by_cases h10 : n < 10
    · simp [formatUintAux, h10]
    · have hdiv : n / 10 < n := by omega
      rw [formatUintAux, if_neg h10, formatUintAux, if_neg h10]
      rw [ih (n / 10) hdiv f _ (by omega), ih (n / 10) hdiv n _ hdiv]
      simp

theorem formatUint_lt (n : Nat) (h : n < 10) : formatUint n = [digitChar n] := by
  simp [formatUint, formatUintAux, h]

theorem formatUint_ge (n : Nat) (h : ¬ n < 10) :
    formatUint n = formatUint (n / 10) ++ [digitChar (n % 10)] := by
  have hdiv : n / 10 < n := by omega
  conv_lhs => unfold formatUint
  rw [formatUintAux, if_neg h, formatUintAux_eq (n / 10) n _ hdiv]

theorem parseDigits_append (xs ys : List Char) : ∀ acc : Nat,
    parseDigits acc (xs ++ ys) = (parseDigits acc xs).bind (fun v => parseDigits v ys) := by
  induction xs with
  | nil => intro acc; simp [parseDigits]
  | cons c cs ih =>
    intro acc
    simp only [List.cons_append, parseDigits]
    cases digitVal c with
    | none => simp
    | some d => simp [ih]

theorem parseDigits_formatUint (n : Nat) : parseDigits 0 (formatUint n) = some n := by
  induction n using Nat.strong_induction_on with
  | _ n ih =>
    by_cases h10 : n < 10
    · rw [formatUint_lt n h10]
      simp [parseDigits, digitVal_digitChar n h10]
    · rw [formatUint_ge n h10, parseDigits_append, ih (n / 10) (by omega)]
      simp [parseDigits, digitVal_digitChar (n % 10) (by omega)]
      omega

theorem formatUint_head (n : Nat) :
    ∃ c rest, formatUint n = c :: rest ∧ c ≠ '+' ∧ c ≠ '-' := by
  have h := parseDigits_formatUint n
  have hne : formatUint n ≠ [] := by
    by_cases h10 : n < 10
    · rw [formatUint_lt n h10]; simp
    · rw [formatUint_ge n h10]; simp
  obtain ⟨c, rest, hcr⟩ := List.exists_cons_of_ne_nil hne
  refine ⟨c, rest, hcr, ?_, ?_⟩
  · rintro rfl
    rw [hcr] at h
    simp [parseDigits, digitVal] at h
  · rintro rfl
    rw [hcr] at h
    simp [parseDigits, digitVal] at h

theorem ParseInt_FormatInt (i : Int) (h : isInt64 i) : ParseInt (FormatInt i) = some i := by
  obtain ⟨h1, h2⟩ := h
  by_cases hneg : i < 0
  · have hp : parseUint (formatUint i.natAbs) = some i.natAbs := by
      obtain ⟨c, rest, hcr, -, -⟩ := formatUint_head i.natAbs
      unfold parseUint
      rw [if_neg (by rw [hcr]; simp)]
      exact parseDigits_formatUint _
    simp only [FormatInt, hneg, if_true, ParseInt, hp]
    rw [if_pos (by omega)]
    congr 1
    omega
  · obtain ⟨c, rest, hcr, hplus, hminus⟩ := formatUint_head i.natAbs
    have hp : parseUint (c :: rest) = some i.natAbs := by
      unfold parseUint
      rw [if_neg (by simp), ← hcr]
      exact parseDigits_formatUint _
    simp only [FormatInt, hneg, if_false, hcr]
    unfold ParseInt
    split
    · rename_i heq; simp at heq
    · rename_i heq
      simp at heq
      exact absurd heq.1 hplus
    · rename_i heq
      simp at heq
      exact absurd heq.1 hminus
    · rename_i c' rest' _ _ heq
      simp at heq
      obtain ⟨rfl, rfl⟩ := heq
      rw [hp]
      simp only
      rw [if_pos (by omega)]
      congr 1
      omega

theorem FormatInt_injective (a b : Int) (ha : isInt64 a) (hb : isInt64 b)
    (h : FormatInt a = FormatInt b) : a = b := by
  have h1 := ParseInt_FormatInt a ha
  rw [h, ParseInt_FormatInt b hb] at h1
  exact (Option.some.inj h1).symm

/-! ## Lemmas about `getChunks` and `MarkComplete` -/

theorem getChunks_sorted (s : piecePerResourcePiece) (rp : Provider) :
    offsetSorted (s.getChunks rp) := by
  unfold piecePerResourcePiece.getChunks offsetSorted
  exact List.sorted_insertionSort chunk.le _

theorem getChunks_mem (s : piecePerResourcePiece) (rp : Provider) (c : chunk) :
    c ∈ s.getChunks rp ↔
      ∃ e ∈ rp.incompleted, ParseInt e.1 = some c.offset ∧ c = ⟨c.offset, ⟨e.1, some e.2⟩⟩ := by
  unfold piecePerResourcePiece.getChunks
  rw [(List.perm_insertionSort chunk.le _).mem_iff, List.mem_filterMap]
  constructor
  · rintro ⟨e, he, hc⟩
    refine ⟨e, he, ?_⟩
    cases hpi : ParseInt e.1 with
    | none => rw [hpi] at hc; simp at hc
    | some off =>
      rw [hpi] at hc
      simp only [Option.some.injEq] at hc
      subst hc
      exact ⟨rfl, rfl⟩
  · rintro ⟨e, he, hpi, hc⟩
    refine ⟨e, he, ?_⟩
    rw [hpi]
    simp only [Option.some.injEq]
    exact hc.symm

theorem getChunks_present (s : piecePerResourcePiece) (rp : Provider) :
    ∀ c ∈ s.getChunks rp, c.instance_.file ≠ none := by
  intro c hc
  obtain ⟨e, -, -, hce⟩ := (getChunks_mem s rp c).mp hc
  rw [hce]
  simp

theorem foldl_deleteFile (cs : chunks) : ∀ dir : List (String × Bytes),
    cs.foldl (fun dir c => deleteFile dir c.instance_.key) dir =
      dir.filter (fun e => decide (∀ c ∈ cs, e.1 ≠ c.instance_.key)) := by
  induction cs with
  | nil => intro dir; simp
  | cons c rest ih =>
    intro dir
    rw [List.foldl_cons, ih, deleteFile, List.filter_filter]
    congr 1
    funext e
    simp only [List.mem_cons, forall_eq_or_imp, ne_eq, decide_not, Bool.decide_and]
    rw [Bool.and_comm]

theorem getChunks_after_delete (s : piecePerResourcePiece) (rp : Provider)
    (done : Option Bytes) :
    s.getChunks ⟨done, (s.getChunks rp).foldl (fun dir c => deleteFile dir c.instance_.key)
      rp.incompleted⟩ = [] := by
  rw [foldl_deleteFile]
  have hnil : (List.filter (fun e => decide (∀ c ∈ s.getChunks rp, e.1 ≠ c.instance_.key))
      rp.incompleted).filterMap (fun e =>
        match ParseInt e.1 with
        | some offset => some (⟨offset, ⟨e.1, some e.2⟩⟩ : chunk)
        | none => none) = [] := by
    rw [List.filterMap_eq_nil_iff]
    intro e he
    obtain ⟨hmem, hkeep⟩ := List.mem_filter.mp he
    cases hpi : ParseInt e.1 with
    | none => rfl
    | some off =>
      exfalso
      have hin : (⟨off, ⟨e.1, some e.2⟩⟩ : chunk) ∈ s.getChunks rp :=
        (getChunks_mem s rp _).mpr ⟨e, hmem, hpi, rfl⟩
      have := of_decide_eq_true hkeep _ hin
      exact this rfl
  show List.insertionSort chunk.le (List.filterMap _ (List.filter
    (fun e => decide (∀ c ∈ s.getChunks rp, e.1 ≠ c.instance_.key)) rp.incompleted)) = []
  rw [hnil]
  rfl

/-- What `MarkComplete` does in every provider state, whether or not the chunks cover the piece:
the copy into the completed instance ends without error, the completed instance becomes the
bytes `chunks.ReadAt(0, Length)` delivers, and every chunk is deleted. -/
theorem MarkComplete_eq (s : piecePerResourcePiece) (rp : Provider)
    (h0 : 0 ≤ s.mp.Length) (hlim : s.mp.Length < 9223372036854775808)
    (hrep : ∀ c ∈ s.getChunks rp, s.mp.Length - c.offset < 9223372036854775808) :
    s.MarkComplete rp =
      some (none, ⟨some (chunks.ReadAt (s.getChunks rp) s.mp.Length.toNat 0).data,
        (s.getChunks rp).foldl (fun dir c => deleteFile dir c.instance_.key) rp.incompleted⟩) := by
  have hs := getChunks_sorted s rp
  have hp := getChunks_present s rp
  have hserve : Serves (s.getChunks rp) s.mp.Length.toNat 0
      (chunks.ReadAt (s.getChunks rp) s.mp.Length.toNat 0).data :=
    chunks.ReadAt_serves _ _ _ hs hp (fun c hc => by have := hrep c hc; omega)
      (by omega) (by omega)
  obtain ⟨d, hd, hsd⟩ := ioCopy_serves (s.getChunks rp) s.mp.Length hs hp hrep hlim
    (s.mp.Length.toNat + 1) 0 [] (by omega) h0 (by omega)
  have hsd' : Serves (s.getChunks rp) s.mp.Length.toNat 0 d := by
    simpa using hsd
  have hdeq : d = (chunks.ReadAt (s.getChunks rp) s.mp.Length.toNat 0).data :=
    hsd'.unique hserve
  unfold piecePerResourcePiece.MarkComplete
  simp only [hd, List.nil_append]
  rw [hdeq]
  rfl

/-- With pairwise distinct offsets there is only one ascending order: whatever `sort.Slice` does
with equal offsets, every call of `getChunks` on this state yields the same list. -/
theorem getChunks_order_unique (s : piecePerResourcePiece) (rp : Provider)
    (hdist : (s.getChunks rp).Pairwise (fun a b => a.offset ≠ b.offset)) (me : chunks)
    (hperm : me.Perm (s.getChunks rp)) (hsorted : offsetSorted me) : me = s.getChunks rp := by
  refine List.Perm.eq_of_sorted ?_ hsorted (getChunks_sorted s rp) hperm
  intro a b ha hb hab hba
  by_contra hne
  have hsym : Symmetric (fun a b : chunk => a.offset ≠ b.offset) := fun _ _ h => Ne.symm h
  have := hdist.forall hsym (hperm.subset ha) hb hne
  exact this (Int.le_antisymm hab hba)

/-! ## From the chunk list to the store -/

theorem getChunks_of_entry (s : piecePerResourcePiece) (rp : Provider) (e : String × Bytes)
    (o : Int) (he : e ∈ rp.incompleted) (ho : ParseInt e.1 = some o) :
    (⟨o, ⟨e.1, some e.2⟩⟩ : chunk) ∈ s.getChunks rp :=
  (getChunks_mem s rp _).mpr ⟨e, he, ho, rfl⟩

theorem covered_iff_storeCovered (s : piecePerResourcePiece) (rp : Provider) (p : Int) :
    covered (s.getChunks rp) p ↔ storeCovered rp p := by
  constructor
  · rintro ⟨c, hc, hcov⟩
    obtain ⟨e, he, hpi, hce⟩ := (getChunks_mem s rp c).mp hc
    refine ⟨e, he, c.offset, hpi, hcov.1, ?_⟩
    have hsize : c.size = e.2.length := by rw [hce]; simp [chunk.size]
    have := hcov.2
    rw [hsize] at this
    exact this
  · rintro ⟨e, he, o, ho, h1, h2⟩
    exact ⟨_, getChunks_of_entry s rp e o he ho, h1, by simpa [chunk.size] using h2⟩

theorem getChunks_offsets (s : piecePerResourcePiece) (rp : Provider) (c : chunk)
    (hc : c ∈ s.getChunks rp) : c.offset ∈ storedOffsets rp := by
  obtain ⟨e, he, hpi, -⟩ := (getChunks_mem s rp c).mp hc
  exact List.mem_filterMap.mpr ⟨e, he, hpi⟩

theorem firstCovering_entry (s : piecePerResourcePiece) (rp : Provider) (p : Int) (c : chunk)
    (h : firstCovering (s.getChunks rp) p = some c) :
    ∃ e, lowestCovering rp e c.offset p ∧ c.byteAt p = e.2[(p - c.offset).toNat]? := by
  obtain ⟨hc, hcov⟩ := firstCovering_some h
  obtain ⟨e, he, hpi, hce⟩ := (getChunks_mem s rp c).mp hc
  have hsize : c.size = e.2.length := by rw [hce]; simp [chunk.size]
  have hcov2 := hcov.2
  rw [hsize] at hcov2
  refine ⟨e, ⟨he, hpi, hcov.1, hcov2, ?_⟩, ?_⟩
  · intro e2 he2 o2 ho2 h1 h2
    exact firstCovering_lowest _ (getChunks_sorted s rp) p c h _
      (getChunks_of_entry s rp e2 o2 he2 ho2) ⟨h1, by simpa [chunk.size] using h2⟩
  · unfold chunk.byteAt
    rw [if_pos hcov.1, hce]
    simp

theorem not_complete_of_store (s : piecePerResourcePiece) (rp : Provider)
    (hinc : ∀ d, rp.completed = some d → (d.length : Int) ≠ s.mp.Length) :
    (s.Completion rp).Complete = false := by
  unfold piecePerResourcePiece.Completion Instance.Stat piecePerResourcePiece.completed
  cases h : rp.completed with
  | none => simp
  | some d => simpa using hinc d h

theorem entry_unique_of_nodup (l : List (String × Bytes))
    (hnd : (l.filterMap (fun e => ParseInt e.1)).Nodup) (a b : String × Bytes) (o : Int)
    (ha : a ∈ l) (hb : b ∈ l) (hoa : ParseInt a.1 = some o) (hob : ParseInt b.1 = some o) :
    a = b := by
  induction l with
  | nil => simp at ha
  | cons x xs ih =>
    have hmem : ∀ y ∈ xs, ParseInt y.1 = some o → o ∈ xs.filterMap (fun e => ParseInt e.1) :=
      fun y hy hyo => List.mem_filterMap.mpr ⟨y, hy, hyo⟩
    rcases List.mem_cons.mp ha with rfl | ha'
    · rcases List.mem_cons.mp hb with rfl | hb'
      · rfl
      · exfalso
        rw [List.filterMap_cons, hoa] at hnd
        exact (List.nodup_cons.mp hnd).1 (hmem b hb' hob)
    · rcases List.mem_cons.mp hb with rfl | hb'
      · exfalso
        rw [List.filterMap_cons, hob] at hnd
        exact (List.nodup_cons.mp hnd).1 (hmem a ha' hoa)
      · refine ih ?_ ha' hb'
        rw [List.filterMap_cons] at hnd
        cases hx : ParseInt x.1 with
        | none => rw [hx] at hnd; exact hnd
        | some v => rw [hx] at hnd; exact (List.nodup_cons.mp hnd).2

theorem incompleted_after_delete (s : piecePerResourcePiece) (rp : Provider) :
    (s.getChunks rp).foldl (fun dir c => deleteFile dir c.instance_.key) rp.incompleted =
      rp.incompleted.filter (fun e => (ParseInt e.1).isNone) := by
  rw [foldl_deleteFile]
  apply List.filter_congr
  intro e he
  cases hpi : ParseInt e.1 with
  | some o =>
    have hin := getChunks_of_entry s rp e o he hpi
    simp only [Option.isNone_some, decide_eq_false_iff_not]
    intro hall
    exact hall _ hin rfl
  | none =>
    simp only [Option.isNone_none, decide_eq_true_eq]
    intro c hc heq
    obtain ⟨e2, -, hpi2, hce⟩ := (getChunks_mem s rp c).mp hc
    rw [hce] at heq
    simp only at heq
    rw [heq, hpi2] at hpi
    cases hpi

theorem getChunks_distinct (s : piecePerResourcePiece) (rp : Provider)
    (hnd : (storedOffsets rp).Nodup) :
    (s.getChunks rp).Pairwise (fun a b => a.offset ≠ b.offset) := by
  have hmap : List.Perm ((s.getChunks rp).map (fun c => c.offset)) (storedOffsets rp) := by
    unfold piecePerResourcePiece.getChunks storedOffsets
    refine ((List.perm_insertionSort chunk.le _).map _).trans ?_
    rw [List.map_filterMap]
    apply List.Perm.of_eq
    congr 1
    funext e
    cases ParseInt e.1 <;> rfl
  have hnd2 : ((s.getChunks rp).map (fun c => c.offset)).Nodup := hmap.nodup_iff.mpr hnd
  exact List.pairwise_map.mp hnd2

/-! ## Lemmas about sequences of `WriteAt` calls -/

theorem writeAll_fresh (s : piecePerResourcePiece) (done : Option Bytes) (ws : List Write) :
    ∀ dir : List (String × Bytes),
      (∀ w ∈ ws, ∀ e ∈ dir, e.1 ≠ FormatInt w.off) →
      ws.Pairwise (fun a b => FormatInt a.off ≠ FormatInt b.off) →
      writeAll s ⟨done, dir⟩ ws = ⟨done, dir ++ ws.map (fun w => (FormatInt w.off, w.b))⟩ := by
  induction ws with
  | nil => intro dir _ _; simp [writeAll]
  | cons w rest ih =>
    intro dir hfresh hpw
    have hnot : dir.any (fun e => decide (e.1 = FormatInt w.off)) = false := by
      rw [List.any_eq_false]
      intro e he
      simpa using hfresh w (List.mem_cons_self _ _) e he
    have hstep : (s.WriteAt ⟨done, dir⟩ w.b w.off).2 =
        ⟨done, dir ++ [(FormatInt w.off, w.b)]⟩ := by
      simp only [piecePerResourcePiece.WriteAt, putFile, hnot]
      rfl
    have hrec := ih (dir ++ [(FormatInt w.off, w.b)])
      (fun w2 hw2 e he => by
        rcases List.mem_append.mp he with h | h
        · exact hfresh w2 (List.mem_cons_of_mem _ hw2) e h
        · simp only [List.mem_singleton] at h
          subst h
          exact (List.pairwise_cons.mp hpw).1 w2 hw2)
      (List.pairwise_cons.mp hpw).2
    unfold writeAll at hrec ⊢
    rw [List.foldl_cons, hstep, hrec]
    simp

theorem Write.disjoint_symm : Symmetric Write.disjoint := by
  intro a b h
  unfold Write.disjoint at h ⊢
  omega

/-! ## Lemmas about the producer loop -/

theorem ceilDiv_le_one (x w : Nat) (hw : 0 < w) (h : x ≤ w) : ceilDiv x w ≤ 1 := by
  unfold ceilDiv
  have : (x + w - 1) / w < 2 := (Nat.div_lt_iff_lt_mul hw).mpr (by omega)
  omega

theorem ceilDiv_step (x w : Nat) (hw : 0 < w) (h : w < x) :
    ceilDiv x w = ceilDiv (x - w) w + 1 ∧ 1 ≤ ceilDiv (x - w) w := by
  unfold ceilDiv
  have h1 : x + w - 1 = (x - w + w - 1) + w := by omega
  refine ⟨by rw [h1, Nat.add_div_right _ hw], ?_⟩
  exact (Nat.le_div_iff_mul_le hw).mpr (by omega)

theorem objectRead_length (obj : Bytes) (pos w : Nat) :
    (objectRead obj pos w).data.length = min w (obj.length - pos) := by
  simp [objectRead, List.length_take, List.length_drop]

theorem producerLoop_objectReads (obj : Bytes) (w : Nat) (hw : 0 < w)
    (hlim : (obj.length : Int) < 9223372036854775808) :
    ∀ (fuel pos : Nat) (buf : Bytes), pos ≤ obj.length → obj.length - pos < fuel →
      (producerLoop (pos : Int) buf (objectReads obj w fuel pos)).2 = Outcome.done ∧
      (producerLoop (pos : Int) buf (objectReads obj w fuel pos)).1.length =
        max 1 (ceilDiv (obj.length - pos) w) ∧
      (∃ last, (producerLoop (pos : Int) buf (objectReads obj w fuel pos)).1.getLast? = some last ∧
        last.eof = true ∧ last.endOff = (obj.length : Int) - 1) ∧
      (∀ u ∈ (producerLoop (pos : Int) buf (objectReads obj w fuel pos)).1.dropLast,
        u.eof = false) := by
  intro fuel
  induction fuel with
  | zero => intro pos buf _ h; omega
  | succ fuel ih =>
    intro pos buf hpos hfuel
    have hlen := objectRead_length obj pos w
    by_cases hend : obj.length - pos ≤ w
    · have herr : (objectRead obj pos w).err = some Err.EOF := by
        unfold objectRead at hlen ⊢
        simp only at hlen ⊢
        rw [if_pos (by omega)]
      have hreads : objectReads obj w (fuel + 1) pos = [objectRead obj pos w] := by
        rw [objectReads]
        simp only [herr]
      rw [hreads]
      have hn : ((objectRead obj pos w).data.length : Int) = (obj.length : Int) - (pos : Int) := by
        omega
      have hw1 : wrap64 ((pos : Int) + ((objectRead obj pos w).data.length : Int)) =
          (obj.length : Int) := by
        rw [hn]; exact (wrap64_eq (by omega) (by omega)).trans (by omega)
      have hw2 : wrap64 ((obj.length : Int) - 1) = (obj.length : Int) - 1 :=
        wrap64_eq (by omega) (by omega)
      simp only [producerLoop, herr, hw1, hw2, List.length_singleton, List.getLast?_singleton,
        List.dropLast_single]
      refine ⟨trivial, ?_, ⟨_, rfl, rfl, rfl⟩, fun u hu => by simp at hu⟩
      have := ceilDiv_le_one (obj.length - pos) w hw hend
      omega
    · have herr : (objectRead obj pos w).err = none := by
        unfold objectRead at hlen ⊢
        simp only at hlen ⊢
        rw [if_neg (by omega)]
      have hn : (objectRead obj pos w).data.length = w := by omega
      have hreads : objectReads obj w (fuel + 1) pos =
          objectRead obj pos w :: objectReads obj w fuel (pos + w) := by
        rw [objectReads]
        simp only [herr, hn]
      rw [hreads]
      have hw1 : wrap64 ((pos : Int) + ((objectRead obj pos w).data.length : Int)) =
          ((pos + w : Nat) : Int) := by
        rw [hn]; exact (wrap64_eq (by omega) (by omega)).trans (by push_cast; rfl)
      obtain ⟨i1, i2, ⟨last, i3, i4, i5⟩, i6⟩ := ih (pos + w)
        ((objectRead obj pos w).data ++ List.drop (objectRead obj pos w).data.length buf)
        (by omega) (by omega)
      obtain ⟨c1, c2⟩ := ceilDiv_step (obj.length - pos) w hw (by omega)
      have hsub : obj.length - (pos + w) = obj.length - pos - w := by omega
      rw [hsub] at i2
      have hne : (producerLoop ((pos + w : Nat) : Int)
          ((objectRead obj pos w).data ++ List.drop (objectRead obj pos w).data.length buf)
          (objectReads obj w fuel (pos + w))).1 ≠ [] := by
        intro h
        rw [h] at i2
        simp at i2
        omega
      simp only [producerLoop, herr, hw1]
      refine ⟨i1, ?_, ⟨last, ?_, i4, i5⟩, ?_⟩
      · rw [List.length_cons, i2]
        omega
      · rw [List.getLast?_cons, i3]
        rfl
      · intro u hu
        rw [List.dropLast_cons_of_ne_nil hne] at hu
        rcases List.mem_cons.mp hu with rfl | h
        · rfl
        · exact i6 u h

theorem producerLoop_short_read (buf : Bytes) :
    (producerLoop 0 buf [⟨[1, 2, 3, 4, 5], none⟩, ⟨[6, 7, 8], some Err.EOF⟩]).1.map
        (fun u => (u.startOff, u.endOff, u.chunk.length, u.eof)) =
      [(0, 4, 5 + (buf.length - 5), false), (5, 7, 3, true)] ∧
    (producerLoop 0 buf [⟨[1, 2, 3, 4, 5], none⟩, ⟨[6, 7, 8], some Err.EOF⟩]).2 =
      Outcome.done := by
  have h1 : wrap64 (0 + ((0 + 1 + 1 + 1 + 1 + 1 : Nat) : Int)) = 5 := by decide
  have h2 : wrap64 (5 - 1) = 4 := by decide
  have h3 : wrap64 (5 + ((0 + 1 + 1 + 1 : Nat) : Int)) = 8 := by decide
  have h4 : wrap64 (8 - 1) = 7 := by decide
  simp only [producerLoop, List.map_cons, List.map_nil, List.length_cons, List.length_nil,
    List.length_append, List.length_drop, List.length_take, h1, h2, h3, h4]
  refine ⟨?_, trivial⟩
  simp only [List.cons.injEq, Prod.mk.injEq, and_true, true_and]
  omega

/-- An object that `startUpload` hands to the producer loop has more than 512 bytes, so at least
one: for a shorter object the read of `detetctMime` ends in `io.EOF` and the program panics
before the loop. -/
theorem startUpload_reaches_loop (w : Nat) (obj : Bytes) (fuel : Nat)
    (run : List GDUploadChunk × Outcome) (h : startUpload w obj fuel = some run) :
    512 < obj.length ∧ run = producer w (objectReads obj w fuel 0) := by
  unfold startUpload detetctMime at h
  have hlen := objectRead_length obj 0 512
  by_cases hshort : obj.length ≤ 512
  · have herr : (objectRead obj 0 512).err = some Err.EOF := by
      unfold objectRead at hlen ⊢
      simp only at hlen ⊢
      rw [if_pos (by omega)]
    rw [herr] at h
    simp at h
  · have herr : (objectRead obj 0 512).err = none := by
      unfold objectRead at hlen ⊢
      simp only at hlen ⊢
      rw [if_neg (by omega)]
    rw [herr] at h
    simp only [Option.some.injEq] at h
    exact ⟨by omega, h.symm⟩

/-! ## The claims about the piece store -/

/-- C1 (as amended): for every piece length `≥ 1` and every sequence of `WriteAt` calls, each
carrying at least one byte, issued in any order on a fresh piece (no completed instance, no
chunk), whose byte ranges are non-overlapping and cover `[0, Length)` exactly once, a subsequent
`ReadAt` of the piece with a buffer of `Length` bytes at offset 0 returns `n = Length` with a
`nil` error, and the buffer holds every written byte at its offset. -/
theorem readAt_after_writes (s : piecePerResourcePiece) (ws : List Write)
    (hpos : 0 < s.mp.Length) (hlim : s.mp.Length < 9223372036854775808)
    (hne : ∀ w ∈ ws, w.b ≠ []) (hcover : coversExactlyOnce s.mp.Length ws) :
    ((s.ReadAt (writeAll s ⟨none, []⟩ ws) s.mp.Length.toNat 0).n : Int) = s.mp.Length ∧
    (s.ReadAt (writeAll s ⟨none, []⟩ ws) s.mp.Length.toNat 0).err = none ∧
    ∀ w ∈ ws, ∀ j : Nat, j < w.b.length →
      (s.ReadAt (writeAll s ⟨none, []⟩ ws) s.mp.Length.toNat 0).data[w.off.toNat + j]? =
        w.b[j]? := by
  obtain ⟨hin, hdisj, hall⟩ := hcover
  have hlenpos : ∀ w ∈ ws, 0 < w.b.length := fun w hw =>
    List.length_pos.mpr (hne w hw)
  have hnames : ws.Pairwise (fun a b => FormatInt a.off ≠ FormatInt b.off) := by
    refine List.Pairwise.imp_of_mem ?_ hdisj
    intro a b ha hb hab heq
    have h1 := hin a ha
    have h2 := hin b hb
    have := FormatInt_injective a.off b.off ⟨by omega, by omega⟩ ⟨by omega, by omega⟩ heq
    have l1 := hlenpos a ha
    have l2 := hlenpos b hb
    unfold Write.disjoint at hab
    omega
  have hrp : writeAll s ⟨none, []⟩ ws = ⟨none, ws.map (fun w => (FormatInt w.off, w.b))⟩ := by
    rw [writeAll_fresh s none ws [] (fun _ _ e he => by simp at he) hnames]
    simp
  rw [hrp]
  set rp : Provider := ⟨none, ws.map (fun w => (FormatInt w.off, w.b))⟩ with hrpdef
  have hread : s.ReadAt rp s.mp.Length.toNat 0 =
      chunks.ReadAt (s.getChunks rp) s.mp.Length.toNat 0 := by
    unfold piecePerResourcePiece.ReadAt piecePerResourcePiece.Completion Instance.Stat
      piecePerResourcePiece.completed
    simp [hrpdef]
  rw [hread]
  -- the chunks are exactly the writes
  have hmem : ∀ c ∈ s.getChunks rp, ∃ w ∈ ws, c = ⟨w.off, ⟨FormatInt w.off, some w.b⟩⟩ := by
    intro c hc
    obtain ⟨e, he, hpi, hce⟩ := (getChunks_mem s rp c).mp hc
    obtain ⟨w, hw, rfl⟩ := List.mem_map.mp he
    have h1 := hin w hw
    simp only at hpi hce
    rw [ParseInt_FormatInt w.off ⟨by omega, by omega⟩] at hpi
    have hoff : w.off = c.offset := Option.some.inj hpi
    exact ⟨w, hw, by rw [hce, hoff]⟩
  have hmem2 : ∀ w ∈ ws, (⟨w.off, ⟨FormatInt w.off, some w.b⟩⟩ : chunk) ∈ s.getChunks rp := by
    intro w hw
    have h1 := hin w hw
    exact (getChunks_mem s rp _).mpr ⟨(FormatInt w.off, w.b),
      List.mem_map.mpr ⟨w, hw, rfl⟩, ParseInt_FormatInt w.off ⟨by omega, by omega⟩, rfl⟩
  obtain ⟨h1, h2, h3, h4, h5, h6⟩ := chunks.ReadAt_sorted (s.getChunks rp) s.mp.Length.toNat 0
    (getChunks_sorted s rp) (getChunks_present s rp)
    (fun c hc => by
      obtain ⟨w, hw, rfl⟩ := hmem c hc
      have := hin w hw
      simp only
      omega)
    (by omega) (by omega)
  have hn : (chunks.ReadAt (s.getChunks rp) s.mp.Length.toNat 0).n = s.mp.Length.toNat := by
    by_contra hne2
    have hlt : (chunks.ReadAt (s.getChunks rp) s.mp.Length.toNat 0).n < s.mp.Length.toNat := by
      omega
    obtain ⟨w, hw, hw1, hw2⟩ := hall
      (0 + ((chunks.ReadAt (s.getChunks rp) s.mp.Length.toNat 0).n : Int)) (by omega) (by omega)
    refine h6 hlt _ (hmem2 w hw) ?_
    unfold chunk.covers chunk.size
    simp only [Option.getD_some]
    exact ⟨hw1, hw2⟩
  refine ⟨by omega, h4 hn (by omega), ?_⟩
  intro w hw j hj
  have hwin := hin w hw
  obtain ⟨c, hc, hdata, -⟩ := h5 (w.off.toNat + j) (by omega)
  obtain ⟨hcmem, hccov⟩ := firstCovering_some hc
  obtain ⟨w2, hw2, rfl⟩ := hmem c hcmem
  have hsame : w2 = w := by
    by_contra hdiff
    have hd := hdisj.forall Write.disjoint_symm hw2 hw hdiff
    unfold chunk.covers chunk.size at hccov
    simp only [Option.getD_some] at hccov
    unfold Write.disjoint at hd
    omega
  subst hsame
  rw [hdata]
  unfold chunk.byteAt
  simp only [Option.getD_some]
  rw [if_pos (by omega)]
  congr 1
  omega

/-- C1 (as amended) at a concrete input: a piece of length 10 written as `(5, "FGHIJ")` and then
`(0, "ABCDE")`. -/
theorem readAt_after_writes_witness :
    coversExactlyOnce 10 [⟨5, [70, 71, 72, 73, 74]⟩, ⟨0, [65, 66, 67, 68, 69]⟩] ∧
    (((⟨⟨10⟩⟩ : piecePerResourcePiece).ReadAt (writeAll ⟨⟨10⟩⟩ ⟨none, []⟩
        [⟨5, [70, 71, 72, 73, 74]⟩, ⟨0, [65, 66, 67, 68, 69]⟩]) 10 0).n : Int) = 10 ∧
    ((⟨⟨10⟩⟩ : piecePerResourcePiece).ReadAt (writeAll ⟨⟨10⟩⟩ ⟨none, []⟩
        [⟨5, [70, 71, 72, 73, 74]⟩, ⟨0, [65, 66, 67, 68, 69]⟩]) 10 0).err = none :=
  have hc : coversExactlyOnce 10 [⟨5, [70, 71, 72, 73, 74]⟩, ⟨0, [65, 66, 67, 68, 69]⟩] :=
    ⟨by decide, by decide, fun p h0 h1 => by interval_cases p <;> decide⟩
  have h := readAt_after_writes ⟨⟨10⟩⟩ [⟨5, [70, 71, 72, 73, 74]⟩, ⟨0, [65, 66, 67, 68, 69]⟩]
    (by decide) (by decide) (by decide) hc
  ⟨hc, h.1, h.2.1⟩

/-- C1 (counterexample): the claim fails for a piece of length 0 (no write, empty buffer: the
read returns `io.EOF`, not `nil`), and it fails when one of the writes is empty: after
`WriteAt("ABCDE", 0)` and `WriteAt("", 0)`, whose ranges `[0,5)` and `[0,0)` do not overlap and
cover `[0,5)` exactly once, the chunk named `0` is empty and the read returns 0 bytes. -/
theorem readAt_after_writes_edge_cases :
    (coversExactlyOnce 0 [] ∧
      (⟨⟨0⟩⟩ : piecePerResourcePiece).ReadAt (writeAll ⟨⟨0⟩⟩ ⟨none, []⟩ []) 0 0 =
        ⟨[], some Err.EOF⟩) ∧
    (coversExactlyOnce 5 [⟨0, [65, 66, 67, 68, 69]⟩, ⟨0, []⟩] ∧
      (⟨⟨5⟩⟩ : piecePerResourcePiece).ReadAt
        (writeAll ⟨⟨5⟩⟩ ⟨none, []⟩ [⟨0, [65, 66, 67, 68, 69]⟩, ⟨0, []⟩]) 5 0 =
        ⟨[], some Err.EOF⟩) := by
  refine ⟨⟨⟨by decide, by decide, ?_⟩, by decide⟩, ⟨⟨by decide, by decide, ?_⟩, by decide⟩⟩
  · intro p h0 h1
    omega
  · intro p h0 h1
    exact ⟨⟨0, [65, 66, 67, 68, 69]⟩, by simp, by simpa using h0, by simpa using h1⟩

/-- C2 (the code at the failing input): for a piece of length 10 whose only chunk is
`(0, "ABCDE")`, position 5 is uncovered, yet `MarkComplete` returns `nil`, stores the 5 bytes as
the completed instance and deletes the chunk; `Completion()` then reports `Complete = false`. -/
theorem markComplete_with_gap :
    ¬ covered ((⟨⟨10⟩⟩ : piecePerResourcePiece).getChunks
        ⟨none, [("0", [65, 66, 67, 68, 69])]⟩) 5 ∧
    (⟨⟨10⟩⟩ : piecePerResourcePiece).MarkComplete ⟨none, [("0", [65, 66, 67, 68, 69])]⟩ =
      some (none, ⟨some [65, 66, 67, 68, 69], []⟩) ∧
    ((⟨⟨10⟩⟩ : piecePerResourcePiece).Completion ⟨some [65, 66, 67, 68, 69], []⟩).Complete =
      false := by
  decide

/-- C3 (the code at the failing input): for a piece of length 10 with the chunks `(0, "ABCDE")`
and `(5, "FGHIJ")`, the first `MarkComplete` returns `nil` and leaves the completed instance
`"ABCDEFGHIJ"` with `Complete = true`; a second `MarkComplete` right after it returns `nil`
again but replaces the completed instance by the empty file, so that `Completion()` reports
`Complete = false`. -/
theorem markComplete_twice :
    (⟨⟨10⟩⟩ : piecePerResourcePiece).MarkComplete
        ⟨none, [("0", [65, 66, 67, 68, 69]), ("5", [70, 71, 72, 73, 74])]⟩ =
      some (none, ⟨some [65, 66, 67, 68, 69, 70, 71, 72, 73, 74], []⟩) ∧
    ((⟨⟨10⟩⟩ : piecePerResourcePiece).Completion
        ⟨some [65, 66, 67, 68, 69, 70, 71, 72, 73, 74], []⟩).Complete = true ∧
    (⟨⟨10⟩⟩ : piecePerResourcePiece).MarkComplete
        ⟨some [65, 66, 67, 68, 69, 70, 71, 72, 73, 74], []⟩ =
      some (none, ⟨some [], []⟩) ∧
    ((⟨⟨10⟩⟩ : piecePerResourcePiece).Completion ⟨some [], []⟩).Complete = false := by
  decide

/-- C4 (as amended): for every piece that is not yet complete and whose stored chunks cover all
of `[0, Length)`, have pairwise distinct offsets and lie within reach of `int64` arithmetic (no
relative offset `Length - offset` leaves the `int64` range), `ReadAt(0, Length)` returns
`Length` bytes, each of them the byte of the lowest-offset stored chunk covering its position,
and `MarkComplete` returns `nil`; afterwards the completed instance holds exactly the bytes that
`ReadAt(0, Length)` returned before the call, `Completion()` reports `Complete = true`, every
chunk file is deleted and the chunk list of the piece is empty. The piece and its chunks are
described by the state of the store. With distinct offsets the order of the chunk list does not
depend on how `sort.Slice` treats equal offsets, so the read before the call and the read inside
`MarkComplete` see the same list. `Length` is a non-negative `int64`. -/
theorem markComplete_of_covered (s : piecePerResourcePiece) (rp : Provider)
    (hinc : ∀ d, rp.completed = some d → (d.length : Int) ≠ s.mp.Length)
    (h0 : 0 ≤ s.mp.Length) (hlim : s.mp.Length < 9223372036854775808)
    (hrep : ∀ o ∈ storedOffsets rp, s.mp.Length - o < 9223372036854775808)
    (hdist : (storedOffsets rp).Nodup)
    (hcov : ∀ p : Int, 0 ≤ p → p < s.mp.Length → storeCovered rp p) :
    ((s.ReadAt rp s.mp.Length.toNat 0).n : Int) = s.mp.Length ∧
    (∀ (p : Int) (e : String × Bytes) (o : Int), 0 ≤ p → p < s.mp.Length →
      lowestCovering rp e o p →
      (s.ReadAt rp s.mp.Length.toNat 0).data[p.toNat]? = e.2[(p - o).toNat]?) ∧
    (∀ me : chunks, me.Perm (s.getChunks rp) → offsetSorted me → me = s.getChunks rp) ∧
    ∃ rp', s.MarkComplete rp = some (none, rp') ∧
      rp'.completed = some (s.ReadAt rp s.mp.Length.toNat 0).data ∧
      rp'.incompleted = rp.incompleted.filter (fun e => (ParseInt e.1).isNone) ∧
      (s.Completion rp').Complete = true ∧
      s.getChunks rp' = [] := by
  have hread : s.ReadAt rp s.mp.Length.toNat 0 =
      chunks.ReadAt (s.getChunks rp) s.mp.Length.toNat 0 := by
    unfold piecePerResourcePiece.ReadAt
    rw [not_complete_of_store s rp hinc]
    simp
  rw [hread]
  have hrep2 : ∀ c ∈ s.getChunks rp, s.mp.Length - c.offset < 9223372036854775808 :=
    fun c hc => hrep c.offset (getChunks_offsets s rp c hc)
  obtain ⟨-, -, -, -, h5, -⟩ := chunks.ReadAt_sorted (s.getChunks rp) s.mp.Length.toNat 0
    (getChunks_sorted s rp) (getChunks_present s rp)
    (fun c hc => by have := hrep2 c hc; omega) (by omega) (by omega)
  have hserve : Serves (s.getChunks rp) s.mp.Length.toNat 0
      (chunks.ReadAt (s.getChunks rp) s.mp.Length.toNat 0).data :=
    chunks.ReadAt_serves _ _ _ (getChunks_sorted s rp) (getChunks_present s rp)
      (fun c hc => by have := hrep2 c hc; omega) (by omega) (by omega)
  have hlen : (chunks.ReadAt (s.getChunks rp) s.mp.Length.toNat 0).data.length =
      s.mp.Length.toNat := by
    by_contra hne
    have hlt : (chunks.ReadAt (s.getChunks rp) s.mp.Length.toNat 0).data.length <
        s.mp.Length.toNat := by have := hserve.1; omega
    exact hserve.2.2 hlt
      ((covered_iff_storeCovered s rp _).mpr (hcov _ (by omega) (by omega)))
  refine ⟨by simp only [ReadResult.n]; omega, ?_,
    fun me hperm hsorted =>
      getChunks_order_unique s rp (getChunks_distinct s rp hdist) me hperm hsorted, ?_⟩
  · intro p e o hp0 hp1 hlow
    obtain ⟨c, hc, hd, -⟩ := h5 p.toNat (by simp only [ReadResult.n]; omega)
    have hcast : (0 : Int) + ((p.toNat : Nat) : Int) = p := by omega
    rw [hcast] at hc hd
    obtain ⟨e2, hlow2, hbyte⟩ := firstCovering_entry s rp p c hc
    obtain ⟨he, ho, h1, h2, hmin⟩ := hlow
    obtain ⟨he2, ho2, h12, h22, hmin2⟩ := hlow2
    have hoeq : o = c.offset :=
      Int.le_antisymm (hmin e2 he2 c.offset ho2 h12 h22) (hmin2 e he o ho h1 h2)
    subst hoeq
    have heq : e = e2 := entry_unique_of_nodup rp.incompleted hdist e e2 _ he he2 ho ho2
    subst heq
    rw [hd, hbyte]
  · refine ⟨_, MarkComplete_eq s rp h0 hlim hrep2, rfl, incompleted_after_delete s rp, ?_, ?_⟩
    · unfold piecePerResourcePiece.Completion Instance.Stat piecePerResourcePiece.completed
      simp only [decide_eq_true_eq]
      rw [hlen]
      omega
    · exact getChunks_after_delete s rp _

/-- C4 (as amended) at a concrete input: a piece of length 10, not complete, with the chunks
`(5, "FGHIJ")` and `(0, "ABCDE")`; the completed instance becomes `"ABCDEFGHIJ"`. -/
theorem markComplete_of_covered_witness :
    (⟨⟨10⟩⟩ : piecePerResourcePiece).ReadAt
      ⟨none, [("5", [70, 71, 72, 73, 74]), ("0", [65, 66, 67, 68, 69])]⟩ 10 0 =
      ⟨[65, 66, 67, 68, 69, 70, 71, 72, 73, 74], none⟩ ∧
    ∃ rp', (⟨⟨10⟩⟩ : piecePerResourcePiece).MarkComplete
        ⟨none, [("5", [70, 71, 72, 73, 74]), ("0", [65, 66, 67, 68, 69])]⟩ = some (none, rp') ∧
      rp'.completed = some ((⟨⟨10⟩⟩ : piecePerResourcePiece).ReadAt
        ⟨none, [("5", [70, 71, 72, 73, 74]), ("0", [65, 66, 67, 68, 69])]⟩ 10 0).data ∧
      rp'.incompleted = List.filter (fun e => (ParseInt e.1).isNone)
        [("5", [70, 71, 72, 73, 74]), ("0", [65, 66, 67, 68, 69])] ∧
      ((⟨⟨10⟩⟩ : piecePerResourcePiece).Completion rp').Complete = true ∧
      (⟨⟨10⟩⟩ : piecePerResourcePiece).getChunks rp' = [] :=
  ⟨by decide,
    (markComplete_of_covered ⟨⟨10⟩⟩
      ⟨none, [("5", [70, 71, 72, 73, 74]), ("0", [65, 66, 67, 68, 69])]⟩
      (fun d h => by simp at h) (by decide) (by decide) (by decide) (by decide)
      (fun p h0 h1 => by
        have h1' : p < 10 := h1
        interval_cases p <;> decide)).2.2.2⟩

/-- C4 (counterexample): the claim fails on a piece that is already complete: after
`WriteAt("ABCD", 0)`, `MarkComplete` and `WriteAt("zzzz", 0)` on a piece of length 4, the chunk
covers `[0, 4)`, `ReadAt(0, 4)` returns `"ABCD"` from the completed instance, and `MarkComplete`
stores `"zzzz"`. It also fails when a relative offset overflows: with a chunk at offset
`-9223372036854775808` next to the chunk `(0, "ABCD")`, the chunks cover `[0, 4)`, but the read at
the relative offset `0 - (-2^63)`, which wraps to a negative number, fails, and `MarkComplete`
returns that error and deletes nothing. -/
theorem markComplete_of_covered_edge_cases :
    ((⟨⟨4⟩⟩ : piecePerResourcePiece).MarkComplete ⟨none, [("0", [65, 66, 67, 68])]⟩ =
        some (none, ⟨some [65, 66, 67, 68], []⟩) ∧
      ((⟨⟨4⟩⟩ : piecePerResourcePiece).WriteAt ⟨some [65, 66, 67, 68], []⟩
          [122, 122, 122, 122] 0).2 =
        ⟨some [65, 66, 67, 68], [("0", [122, 122, 122, 122])]⟩ ∧
      (∀ p : Int, 0 ≤ p → p < 4 →
        storeCovered ⟨some [65, 66, 67, 68], [("0", [122, 122, 122, 122])]⟩ p) ∧
      (⟨⟨4⟩⟩ : piecePerResourcePiece).ReadAt
          ⟨some [65, 66, 67, 68], [("0", [122, 122, 122, 122])]⟩ 4 0 =
        ⟨[65, 66, 67, 68], none⟩ ∧
      (⟨⟨4⟩⟩ : piecePerResourcePiece).MarkComplete
          ⟨some [65, 66, 67, 68], [("0", [122, 122, 122, 122])]⟩ =
        some (none, ⟨some [122, 122, 122, 122], []⟩)) ∧
    ((∀ p : Int, 0 ≤ p → p < 4 →
        storeCovered ⟨none, [("-9223372036854775808", [1]), ("0", [65, 66, 67, 68])]⟩ p) ∧
      (⟨⟨4⟩⟩ : piecePerResourcePiece).MarkComplete
          ⟨none, [("-9223372036854775808", [1]), ("0", [65, 66, 67, 68])]⟩ =
        some (some Err.other,
          ⟨some [], [("-9223372036854775808", [1]), ("0", [65, 66, 67, 68])]⟩)) := by
  refine ⟨⟨by decide, by decide, ?_, by decide, by decide⟩, ⟨?_, by decide⟩⟩
  · intro p h0 h1
    have h1' : p < 4 := h1
    interval_cases p <;> decide
  · intro p h0 h1
    have h1' : p < 4 := h1
    interval_cases p <;> decide

/-- C6 (as amended): for every incomplete piece (overlapping chunks allowed) and every read of
`blen` bytes at `off`, `ReadAt` serves the cursors `off, off+1, ...` one after the other, each
with the byte that a lowest-offset chunk among the stored chunks covering the cursor holds for it
(the earliest covering chunk wins at a given cursor); it goes on through the later chunks and
stops only when the buffer is full or at a cursor that no stored chunk covers, and for a
non-empty buffer the error is `nil` when the buffer was filled and `io.EOF` otherwise. The piece
and its chunks are described by the state of the store. The side conditions are those of the
`int64` arithmetic: the read window and the relative offsets inside it are representable. -/
theorem readAt_first_covering (s : piecePerResourcePiece) (rp : Provider) (blen : Nat)
    (off : Int) (hinc : ∀ d, rp.completed = some d → (d.length : Int) ≠ s.mp.Length)
    (hrel : ∀ o ∈ storedOffsets rp, off + (blen : Int) - o < 9223372036854775808)
    (hoff : -9223372036854775808 ≤ off) (hwin : off + (blen : Int) < 9223372036854775808) :
    (s.ReadAt rp blen off).n ≤ blen ∧
    (∀ i : Nat, i < (s.ReadAt rp blen off).n →
      ∃ e o, lowestCovering rp e o (off + (i : Int)) ∧
        (s.ReadAt rp blen off).data[i]? = e.2[(off + (i : Int) - o).toNat]?) ∧
    ((s.ReadAt rp blen off).n < blen →
      ¬ storeCovered rp (off + ((s.ReadAt rp blen off).n : Int))) ∧
    (0 < blen → (s.ReadAt rp blen off).err =
      if (s.ReadAt rp blen off).n = blen then none else some Err.EOF) := by
  have hread : s.ReadAt rp blen off = chunks.ReadAt (s.getChunks rp) blen off := by
    unfold piecePerResourcePiece.ReadAt
    rw [not_complete_of_store s rp hinc]
    simp
  rw [hread]
  obtain ⟨h1, h2, h3, h4, h5, h6⟩ := chunks.ReadAt_sorted (s.getChunks rp) blen off
    (getChunks_sorted s rp) (getChunks_present s rp)
    (fun c hc => hrel c.offset (getChunks_offsets s rp c hc)) hoff hwin
  refine ⟨h1, ?_, ?_, ?_⟩
  · intro i hi
    obtain ⟨c, hc, hd, -⟩ := h5 i hi
    obtain ⟨e, hlow, hbyte⟩ := firstCovering_entry s rp _ c hc
    exact ⟨e, c.offset, hlow, by rw [hd, hbyte]⟩
  · intro hlt hcov
    obtain ⟨c, hc, hcc⟩ := (covered_iff_storeCovered s rp _).mpr hcov
    exact h6 hlt c hc hcc
  · intro hb
    by_cases hfull : (chunks.ReadAt (s.getChunks rp) blen off).n = blen
    · rw [if_pos hfull]; exact h4 hfull hb
    · rw [if_neg hfull]
      rcases h2 with hnone | heof
      · exact absurd (h3 hnone) hfull
      · exact heof

/-- C6 (as amended) at a concrete input: a piece of length 10 with the overlapping chunks
`(0, "ABCDE")` and `(2, eight bytes 120 to 127)`, a buffer of 10 bytes at offset 1. The read
returns the 9 bytes `"BCDE"` from the chunk at offset 0 followed by the last five bytes of the
chunk at offset 2, and stops with `io.EOF` at cursor 10, which no chunk covers. -/
theorem readAt_first_covering_witness :
    (⟨⟨10⟩⟩ : piecePerResourcePiece).ReadAt
      ⟨none, [("0", [65, 66, 67, 68, 69]),
        ("2", [120, 121, 122, 123, 124, 125, 126, 127])]⟩ 10 1 =
      ⟨[66, 67, 68, 69, 123, 124, 125, 126, 127], some Err.EOF⟩ ∧
    ((⟨⟨10⟩⟩ : piecePerResourcePiece).ReadAt
      ⟨none, [("0", [65, 66, 67, 68, 69]),
        ("2", [120, 121, 122, 123, 124, 125, 126, 127])]⟩ 10 1).n ≤ 10 ∧
    (∀ i : Nat, i < ((⟨⟨10⟩⟩ : piecePerResourcePiece).ReadAt
        ⟨none, [("0", [65, 66, 67, 68, 69]),
          ("2", [120, 121, 122, 123, 124, 125, 126, 127])]⟩ 10 1).n →
      ∃ e o, lowestCovering
          ⟨none, [("0", [65, 66, 67, 68, 69]),
            ("2", [120, 121, 122, 123, 124, 125, 126, 127])]⟩ e o (1 + (i : Int)) ∧
        ((⟨⟨10⟩⟩ : piecePerResourcePiece).ReadAt
          ⟨none, [("0", [65, 66, 67, 68, 69]),
            ("2", [120, 121, 122, 123, 124, 125, 126, 127])]⟩
          10 1).data[i]? = e.2[(1 + (i : Int) - o).toNat]?) ∧
    (((⟨⟨10⟩⟩ : piecePerResourcePiece).ReadAt
        ⟨none, [("0", [65, 66, 67, 68, 69]),
          ("2", [120, 121, 122, 123, 124, 125, 126, 127])]⟩ 10 1).n < 10 →
      ¬ storeCovered
        ⟨none, [("0", [65, 66, 67, 68, 69]),
          ("2", [120, 121, 122, 123, 124, 125, 126, 127])]⟩
        (1 + (((⟨⟨10⟩⟩ : piecePerResourcePiece).ReadAt
          ⟨none, [("0", [65, 66, 67, 68, 69]),
            ("2", [120, 121, 122, 123, 124, 125, 126, 127])]⟩ 10 1).n : Int))) ∧
    (0 < 10 → ((⟨⟨10⟩⟩ : piecePerResourcePiece).ReadAt
        ⟨none, [("0", [65, 66, 67, 68, 69]),
          ("2", [120, 121, 122, 123, 124, 125, 126, 127])]⟩ 10 1).err =
      if ((⟨⟨10⟩⟩ : piecePerResourcePiece).ReadAt
        ⟨none, [("0", [65, 66, 67, 68, 69]),
          ("2", [120, 121, 122, 123, 124, 125, 126, 127])]⟩ 10 1).n = 10
      then none else some Err.EOF) :=
  ⟨by decide,
    readAt_first_covering ⟨⟨10⟩⟩
      ⟨none, [("0", [65, 66, 67, 68, 69]),
        ("2", [120, 121, 122, 123, 124, 125, 126, 127])]⟩ 10 1
      (fun d h => by simp at h) (by decide) (by decide) (by decide)⟩

/-- C6 (counterexample): on a piece of length 10 written as `(0, "ABCDE")` and `(2, "xyz")`,
which is not complete, a read of one byte at cursor 2 returns `'C'` from the chunk at offset 0,
while the highest-offset chunk starting at or before cursor 2 is the chunk at offset 2, which
holds `'x'` there. -/
theorem readAt_not_latest :
    writeAll ⟨⟨10⟩⟩ ⟨none, []⟩ [⟨0, [65, 66, 67, 68, 69]⟩, ⟨2, [120, 121, 122]⟩] =
      ⟨none, [("0", [65, 66, 67, 68, 69]), ("2", [120, 121, 122])]⟩ ∧
    ((⟨⟨10⟩⟩ : piecePerResourcePiece).Completion
      ⟨none, [("0", [65, 66, 67, 68, 69]), ("2", [120, 121, 122])]⟩).Complete = false ∧
    (⟨⟨10⟩⟩ : piecePerResourcePiece).ReadAt
      ⟨none, [("0", [65, 66, 67, 68, 69]), ("2", [120, 121, 122])]⟩ 1 2 = ⟨[67], none⟩ ∧
    (latestStarting ((⟨⟨10⟩⟩ : piecePerResourcePiece).getChunks
        ⟨none, [("0", [65, 66, 67, 68, 69]), ("2", [120, 121, 122])]⟩) 2).bind
      (fun c => c.byteAt 2) = some 120 ∧
    ¬ servesLatest ((⟨⟨10⟩⟩ : piecePerResourcePiece).getChunks
      ⟨none, [("0", [65, 66, 67, 68, 69]), ("2", [120, 121, 122])]⟩) 1 2 := by
  refine ⟨by decide, by decide, by decide, by decide, ?_⟩
  intro h
  have h0 := h 0 (by decide)
  revert h0
  decide

/-- C8: for every piece and every store state, `Completion()` returns `Ok = true`, and
`Complete = true` if and only if the store holds a completed instance for the piece and its
size equals the declared length of the piece. -/
theorem completion_iff (s : piecePerResourcePiece) (rp : Provider) :
    (s.Completion rp).Ok = true ∧
    ((s.Completion rp).Complete = true ↔
      ∃ d, rp.completed = some d ∧ (d.length : Int) = s.mp.Length) := by
  unfold piecePerResourcePiece.Completion Instance.Stat piecePerResourcePiece.completed
  cases h : rp.completed with
  | none => simp
  | some d => simp

/-- C10: for every offset-sorted chunk list (overlapping chunks allowed) whose instances are
present, every non-empty buffer and every offset `off ≥ 0`, `chunks.ReadAt` returns
`n = min(len(b), g - off)` where `g` is the smallest position `≥ off` that no chunk covers; the
error is `nil` exactly when `n = len(b)` and `io.EOF` otherwise. `chunks.ReadAt` is a total
function, so the call terminates. The side conditions on `int64` say that the read window ends
below `2^63` and that no relative offset inside it leaves the `int64` range. -/
theorem chunks_ReadAt_count (me : chunks) (blen : Nat) (off : Int) (hs : offsetSorted me)
    (hp : ∀ c ∈ me, c.instance_.file ≠ none)
    (hrel : ∀ c ∈ me, off + (blen : Int) - c.offset < 9223372036854775808)
    (hb : 0 < blen) (hoff : 0 ≤ off) (hwin : off + (blen : Int) < 9223372036854775808) :
    ∃ g : Int, IsLeast {p : Int | off ≤ p ∧ ¬ covered me p} g ∧
      (chunks.ReadAt me blen off).n = min blen (g - off).toNat ∧
      (chunks.ReadAt me blen off).err =
        if (chunks.ReadAt me blen off).n = blen then none else some Err.EOF := by
  obtain ⟨h1, h2, h3, h4, h5, h6⟩ :=
    chunks.ReadAt_sorted me blen off hs hp hrel (by omega) hwin
  obtain ⟨g, ⟨hg1, hg2⟩, hg3⟩ := Int.exists_least_of_bdd
    (P := fun p => off ≤ p ∧ ¬ covered me p) ⟨off, fun z hz => hz.1⟩ (exists_uncovered me off)
  have hcovered : ∀ i : Nat, i < (chunks.ReadAt me blen off).n →
      covered me (off + (i : Int)) := by
    intro i hi
    obtain ⟨c, hc, -, -⟩ := h5 i hi
    exact ⟨c, (firstCovering_some hc).1, (firstCovering_some hc).2⟩
  have hge : off + ((chunks.ReadAt me blen off).n : Int) ≤ g := by
    by_contra hlt
    have hi : (g - off).toNat < (chunks.ReadAt me blen off).n := by omega
    have := hcovered (g - off).toNat hi
    have hcast : off + (((g - off).toNat : Nat) : Int) = g := by omega
    rw [hcast] at this
    exact hg2 this
  refine ⟨g, ⟨⟨hg1, hg2⟩, fun z hz => hg3 z hz⟩, ?_, ?_⟩
  · by_cases hfull : (chunks.ReadAt me blen off).n = blen
    · omega
    · have hlt : (chunks.ReadAt me blen off).n < blen := by omega
      have hle : g ≤ off + ((chunks.ReadAt me blen off).n : Int) :=
        hg3 _ ⟨by omega, fun ⟨c, hc, hcov⟩ => h6 hlt c hc hcov⟩
      omega
  · by_cases hfull : (chunks.ReadAt me blen off).n = blen
    · rw [if_pos hfull]; exact h4 hfull hb
    · rw [if_neg hfull]
      rcases h2 with hnone | heof
      · exact absurd (h3 hnone) hfull
      · exact heof

/-- C10 at a concrete input: the chunks `(0, "ABCDE")` and `(5, "FGHIJ")`, a buffer of 10 bytes
at offset 0. -/
theorem chunks_ReadAt_count_witness :
    offsetSorted [⟨0, ⟨"0", some [65, 66, 67, 68, 69]⟩⟩, ⟨5, ⟨"5", some [70, 71, 72, 73, 74]⟩⟩] ∧
    ∃ g : Int,
      IsLeast {p : Int | 0 ≤ p ∧ ¬ covered
        [⟨0, ⟨"0", some [65, 66, 67, 68, 69]⟩⟩, ⟨5, ⟨"5", some [70, 71, 72, 73, 74]⟩⟩] p} g ∧
      (chunks.ReadAt
        [⟨0, ⟨"0", some [65, 66, 67, 68, 69]⟩⟩, ⟨5, ⟨"5", some [70, 71, 72, 73, 74]⟩⟩] 10 0).n =
        min 10 (g - 0).toNat ∧
      (chunks.ReadAt
        [⟨0, ⟨"0", some [65, 66, 67, 68, 69]⟩⟩, ⟨5, ⟨"5", some [70, 71, 72, 73, 74]⟩⟩] 10 0).err =
        if (chunks.ReadAt
          [⟨0, ⟨"0", some [65, 66, 67, 68, 69]⟩⟩, ⟨5, ⟨"5", some [70, 71, 72, 73, 74]⟩⟩]
          10 0).n = 10 then none else some Err.EOF :=
  ⟨by decide,
    chunks_ReadAt_count
      [⟨0, ⟨"0", some [65, 66, 67, 68, 69]⟩⟩, ⟨5, ⟨"5", some [70, 71, 72, 73, 74]⟩⟩] 10 0
      (by decide) (by decide) (by decide) (by decide) (by decide) (by decide)⟩

/-! ## The claims about the upload pipeline -/

/-- C5: for every object length `L` that reaches the producer loop (`L ≥ 1`: `startUpload` runs
`detetctMime` before the loop, which panics when its read of the object ends in `io.EOF`) and
every window size `W > 0`, with a reader that fills the window on every read and reports
end-of-data together with the final bytes, the producer loop terminates after emitting exactly
`ceil(L/W)` units; the last emitted unit has `eof = true` and `endOff = L - 1`, and every
earlier unit has `eof = false`. `L` is an `int`, and `fuel` only bounds the number of reads that
are simulated. -/
theorem producer_units (obj : Bytes) (w fuel : Nat) (hw : 0 < w) (hpos : 0 < obj.length)
    (hlim : (obj.length : Int) < 9223372036854775808) (hfuel : obj.length < fuel) :
    (producer w (objectReads obj w fuel 0)).2 = Outcome.done ∧
    (producer w (objectReads obj w fuel 0)).1.length = ceilDiv obj.length w ∧
    (∃ last, (producer w (objectReads obj w fuel 0)).1.getLast? = some last ∧
      last.eof = true ∧ last.endOff = (obj.length : Int) - 1) ∧
    (∀ u ∈ (producer w (objectReads obj w fuel 0)).1.dropLast, u.eof = false) := by
  have h := producerLoop_objectReads obj w hw hlim fuel 0 (List.replicate w 0)
    (Nat.zero_le _) (by omega)
  have hceil : 1 ≤ ceilDiv obj.length w := by
    unfold ceilDiv
    exact (Nat.le_div_iff_mul_le hw).mpr (by omega)
  obtain ⟨h1, h2, h3, h4⟩ := h
  refine ⟨h1, ?_, h3, h4⟩
  rw [Nat.sub_zero] at h2
  show (producerLoop 0 (List.replicate w 0) (objectReads obj w fuel 0)).1.length = _
  have h2' : (producerLoop 0 (List.replicate w 0) (objectReads obj w fuel 0)).1.length =
      max 1 (ceilDiv obj.length w) := h2
  rw [h2']
  exact max_eq_right hceil

/-- C5 at a concrete input: an object of 10 bytes read in windows of 4 bytes gives 3 units, the
last of which ends at offset 9. -/
theorem producer_units_witness :
    (producer 4 (objectReads [0, 1, 2, 3, 4, 5, 6, 7, 8, 9] 4 11 0)).2 = Outcome.done ∧
    (producer 4 (objectReads [0, 1, 2, 3, 4, 5, 6, 7, 8, 9] 4 11 0)).1.length = ceilDiv 10 4 ∧
    (∃ last, (producer 4 (objectReads [0, 1, 2, 3, 4, 5, 6, 7, 8, 9] 4 11 0)).1.getLast? =
        some last ∧ last.eof = true ∧ last.endOff = 10 - 1) ∧
    (∀ u ∈ (producer 4 (objectReads [0, 1, 2, 3, 4, 5, 6, 7, 8, 9] 4 11 0)).1.dropLast,
      u.eof = false) :=
  producer_units [0, 1, 2, 3, 4, 5, 6, 7, 8, 9] 4 11 (by decide) (by decide) (by decide)
    (by decide)

/-- C7: for every upload unit, `uploadChunk` sends the `Content-Range` value
`bytes <startOff>-<endOff>/<endOff+1>` when `eof` is true and `bytes <startOff>-<endOff>/*` when
`eof` is false, the numbers in decimal; `endOff + 1` is taken to be representable as an `int`. -/
theorem crange_eq (u : GDUploadChunk) (h : isInt64 (u.endOff + 1)) :
    uploadChunk.crange u =
      (if u.eof = true then
        "bytes " ++ FormatInt u.startOff ++ "-" ++ FormatInt u.endOff ++ "/" ++
          FormatInt (u.endOff + 1)
      else
        "bytes " ++ FormatInt u.startOff ++ "-" ++ FormatInt u.endOff ++ "/*") := by
  have hw : wrap64 (u.endOff + 1) = u.endOff + 1 := wrap64_eq h.1 h.2
  unfold uploadChunk.crange
  rw [hw]
  split
  · apply String.ext
    simp [Sprintf, sprintfChars, String.data_append]
  · apply String.ext
    simp [Sprintf, sprintfChars, String.data_append]

/-- C7 at a concrete input: the final unit of a 20 MiB object. -/
theorem crange_eq_witness :
    isInt64 (20971519 + 1) ∧
    uploadChunk.crange ⟨16777216, 20971519, [], true⟩ =
      "bytes " ++ FormatInt 16777216 ++ "-" ++ FormatInt 20971519 ++ "/" ++
        FormatInt (20971519 + 1) :=
  ⟨by decide, crange_eq ⟨16777216, 20971519, [], true⟩ (by decide)⟩

/-- C9 (the code at the failing input): when a read returns 5 bytes with a `nil` error and the
next read returns 3 bytes with `io.EOF`, the first unit declares the range `0-4` but carries the
whole window of `16*1024*1024` bytes, and the second unit starts at offset 5. -/
theorem continueUpload_short_read :
    (continueUpload [⟨[1, 2, 3, 4, 5], none⟩, ⟨[6, 7, 8], some Err.EOF⟩]).1.map
        (fun u => (u.startOff, u.endOff, u.chunk.length, u.eof)) =
      [(0, 4, 16777216, false), (5, 7, 3, true)] ∧
    (continueUpload [⟨[1, 2, 3, 4, 5], none⟩, ⟨[6, 7, 8], some Err.EOF⟩]).2 = Outcome.done := by
  have h := producerLoop_short_read (List.replicate windowSize 0)
  rw [List.length_replicate] at h
  exact h

end Peerstohttp
